import Mathlib

/-!
Verification development for the sonic_pc polynomial-commitment data
structures (`algorithms/src/polycommit/sonic_pc/data_structures.rs`).

The Rust code is shallowly embedded as executable Lean definitions:

* curve points and the byte codec for them are external to the file under
  study, so they are modelled from the spec ("canonical fixed-size
  encode/decode of curve points") as 32-bit values with a 4-byte
  little-endian codec;
* the sha256 digest is external as well and is modelled from the spec
  ("an opaque 256-bit digest function over byte buffers" used as a
  corruption detector) as a position-sensitive checksum padded to 32 bytes;
* byte streams are `List Nat` with every byte < 256; fallible reads
  return `Except String`, and Rust panics (unwrap / assert / index) are
  modelled as distinguishable `Except.error` values.
-/

instance except_decidable_eq {ε α : Type} [DecidableEq ε] [DecidableEq α] :
    DecidableEq (Except ε α) := fun x y =>
  match x, y with
  | .error a, .error b =>
    if h : a = b then isTrue (h ▸ rfl)
    else isFalse (fun hc => h (Except.error.inj hc))
  | .error _, .ok _ => isFalse (fun hc => Except.noConfusion hc)
  | .ok _, .error _ => isFalse (fun hc => Except.noConfusion hc)
  | .ok a, .ok b =>
    if h : a = b then isTrue (h ▸ rfl)
    else isFalse (fun hc => h (Except.ok.inj hc))

/-! ## Byte-level primitives -/

/-- Modelled from the spec: GroupElementCodec treats curve points as values
with a canonical fixed-size encoding; the model uses 32-bit values with a
4-byte little-endian encoding. -/
abbrev G := Fin 4294967296

/-- Little-endian byte encoding of a `u32` value; a larger value is first
truncated modulo 2^32, mirroring the `as u32` casts in the Rust code. -/
def writeU32 (n : Nat) : List Nat :=
  [n % 256, n / 256 % 256, n / 65536 % 256, n / 16777216 % 256]

/-- Recombine four little-endian bytes into the encoded value. -/
def dec4 (b0 b1 b2 b3 : Nat) : Nat :=
  b0 + 256 * b1 + 65536 * b2 + 16777216 * b3

/-- Modelled from the spec: canonical fixed-size encoding of one curve point. -/
def encG (g : G) : List Nat := writeU32 g.val

/-- Concatenated encodings of a vector of curve points; this is what
`Vec::<G1Affine>::to_bytes_le` produces (elements only, no length). -/
def encGs (l : List G) : List Nat := (l.map encG).flatten

/-- One-byte encoding of a boolean presence flag. -/
def writeBool (b : Bool) : List Nat := [if b then 1 else 0]

/-! ## Digest model -/

/-- Modulus of the modelled digest; a prime different from 257 and larger
than any single byte, so that the checksum detects any single-byte change. -/
def hashMod : Nat := 1000003

/-- One step of the modelled rolling checksum. -/
def rollStep (h b : Nat) : Nat := (h * 257 + b) % hashMod

/-- Rolling checksum of a byte buffer starting from state `h`. -/
def rollHash (l : List Nat) (h : Nat) : Nat := l.foldl rollStep h

/-- Modelled from the spec: `sha256`, the opaque 256-bit digest function used
only for integrity-checking serialized parameters.  The model is a
position-sensitive rolling checksum padded to the mandated 32 bytes; like the
real digest it is recomputed identically on the encode and decode paths and
detects single-byte corruption. -/
def sha256 (l : List Nat) : List Nat :=
  writeU32 (rollHash l 0) ++ List.replicate 28 0

/-! ## CommitterKey data model (struct `CommitterKey<E>`) -/

/-- The committer key.  `BTreeMap` fields are modelled as association lists
sorted strictly by key (the representation invariant every `BTreeMap`
maintains); `Option` fields mirror the Rust `Option`s. -/
structure CommitterKey where
  powers_of_beta_g : List G
  lagrange_bases_at_beta_g : List (Nat × List G)
  powers_of_beta_times_gamma_g : List G
  shifted_powers_of_beta_g : Option (List G)
  shifted_powers_of_beta_times_gamma_g : Option (List (Nat × List G))
  enforced_degree_bounds : Option (List Nat)
  max_degree : Nat
deriving DecidableEq

/-- Bytes written for one entry of `lagrange_bases_at_beta_g`: the map key as
`u32` followed by the basis elements (no separate element count — the key
doubles as the count on the read side). -/
def lagrEntryBytes (kv : Nat × List G) : List Nat := writeU32 kv.1 ++ encGs kv.2

/-- Bytes written for one entry of `shifted_powers_of_beta_times_gamma_g`:
key as `u32`, element count as `u32`, then the elements. -/
def sgEntryBytes (kv : Nat × List G) : List Nat :=
  writeU32 kv.1 ++ writeU32 kv.2.length ++ encGs kv.2

/-- Length-prefixed vector of points. -/
def writeVec (l : List G) : List Nat := writeU32 l.length ++ encGs l

/-- Serialized `lagrange_bases_at_beta_g`: entry count, then the entries in
key order. -/
def writeLagr (m : List (Nat × List G)) : List Nat :=
  writeU32 m.length ++ (m.map lagrEntryBytes).flatten

/-- Serialized optional shifted-powers vector: presence flag, then the
length-prefixed vector when present. -/
def writeOptVec (o : Option (List G)) : List Nat :=
  writeBool o.isSome ++
    match o with
    | some l => writeU32 l.length ++ encGs l
    | none => []

/-- Serialized optional `shifted_powers_of_beta_times_gamma_g` map. -/
def writeOptSG (o : Option (List (Nat × List G))) : List Nat :=
  writeBool o.isSome ++
    match o with
    | some m => writeU32 m.length ++ (m.map sgEntryBytes).flatten
    | none => []

/-- Serialized optional `enforced_degree_bounds` list. -/
def writeOptEb (o : Option (List Nat)) : List Nat :=
  writeBool o.isSome ++
    match o with
    | some l => writeU32 l.length ++ (l.map writeU32).flatten
    | none => []

/-- The digest input assembled identically by `write_le` and `read_le`:
`powers_of_beta_g`, then `powers_of_beta_times_gamma_g`, then (when present)
`shifted_powers_of_beta_g`, then the values of
`shifted_powers_of_beta_times_gamma_g` in key order.  The Lagrange bases are
NOT part of the digest input, exactly as in the source. -/
def hashInput (ck : CommitterKey) : List Nat :=
  encGs ck.powers_of_beta_g ++ encGs ck.powers_of_beta_times_gamma_g ++
    (match ck.shifted_powers_of_beta_g with
     | some sp => encGs sp
     | none => []) ++
    (match ck.shifted_powers_of_beta_times_gamma_g with
     | some m => (m.map (fun kv => encGs kv.2)).flatten
     | none => [])

/-- `CommitterKey::write_le` without the trailing digest. -/
def CommitterKey.writeBody (ck : CommitterKey) : List Nat :=
  writeVec ck.powers_of_beta_g ++
  writeLagr ck.lagrange_bases_at_beta_g ++
  writeVec ck.powers_of_beta_times_gamma_g ++
  writeOptVec ck.shifted_powers_of_beta_g ++
  writeOptSG ck.shifted_powers_of_beta_times_gamma_g ++
  writeOptEb ck.enforced_degree_bounds ++
  writeU32 ck.max_degree

/-- `impl ToBytes for CommitterKey::write_le`: the body followed by the
32-byte digest of the group elements. -/
def CommitterKey.write_le (ck : CommitterKey) : List Nat :=
  ck.writeBody ++ sha256 (hashInput ck)

/-! ## CommitterKey deserialization (`impl FromBytes for CommitterKey`) -/

/-- Read one `u32` (4 little-endian bytes). -/
def readU32 : List Nat → Except String (Nat × List Nat)
  | b0 :: b1 :: b2 :: b3 :: rest => .ok (dec4 b0 b1 b2 b3, rest)
  | _ => .error "unexpected end of input"

/-- Modelled from the spec: the boolean presence flag is one byte, 0 or 1. -/
def readBool : List Nat → Except String (Bool × List Nat)
  | 0 :: rest => .ok (false, rest)
  | 1 :: rest => .ok (true, rest)
  | _ :: _ => .error "invalid boolean"
  | [] => .error "unexpected end of input"

/-- Modelled from the spec: canonical fixed-size decode of one curve point.
Every 4-byte block decodes (truncating modulo 2^32 for safety on ill-formed
bytes; genuine byte streams always stay below 2^32). -/
def readG (bs : List Nat) : Except String (G × List Nat) :=
  match readU32 bs with
  | .ok (v, rest) => .ok (⟨v % 4294967296, Nat.mod_lt _ (by norm_num)⟩, rest)
  | .error e => .error e

/-- Read `n` curve points. -/
def readGs : Nat → List Nat → Except String (List G × List Nat)
  | 0, bs => .ok ([], bs)
  | n + 1, bs => do
    let (g, bs) ← readG bs
    let (gs, bs) ← readGs n bs
    .ok (g :: gs, bs)

/-- Read exactly `n` raw bytes. -/
def readBytes : Nat → List Nat → Except String (List Nat × List Nat)
  | 0, bs => .ok ([], bs)
  | n + 1, b :: bs => do
    let (t, r) ← readBytes n bs
    .ok (b :: t, r)
  | _ + 1, [] => .error "unexpected end of input"

/-- Read `n` `u32` values. -/
def readU32s : Nat → List Nat → Except String (List Nat × List Nat)
  | 0, bs => .ok ([], bs)
  | n + 1, bs => do
    let (v, bs) ← readU32 bs
    let (vs, bs) ← readU32s n bs
    .ok (v :: vs, bs)

/-- `BTreeMap::insert` on the sorted association-list representation:
places the key in order, replacing an existing equal key. -/
def btreeInsert (k : Nat) (v : List G) : List (Nat × List G) → List (Nat × List G)
  | [] => [(k, v)]
  | (k', v') :: rest =>
    if k < k' then (k, v) :: (k', v') :: rest
    else if k = k' then (k, v) :: rest
    else (k', v') :: btreeInsert k v rest

/-- `BTreeMap` lookup on the association-list representation. -/
def btreeFind (m : List (Nat × List G)) (k : Nat) : Option (List G) :=
  (m.find? (fun kv => kv.1 = k)).map (fun kv => kv.2)

/-- Read `n` Lagrange-basis entries; for each, the stored map key is reused
as the element count, exactly as in the source. -/
def readLagrEntries : Nat → List Nat → List (Nat × List G) →
    Except String (List (Nat × List G) × List Nat)
  | 0, bs, acc => .ok (acc, bs)
  | n + 1, bs, acc => do
    let (size, bs) ← readU32 bs
    let (basis, bs) ← readGs size bs
    readLagrEntries n bs (btreeInsert size basis acc)

/-- Read `n` entries of `shifted_powers_of_beta_times_gamma_g`. -/
def readSGEntries : Nat → List Nat → List (Nat × List G) →
    Except String (List (Nat × List G) × List Nat)
  | 0, bs, acc => .ok (acc, bs)
  | n + 1, bs, acc => do
    let (key, bs) ← readU32 bs
    let (vlen, bs) ← readU32 bs
    let (vals, bs) ← readGs vlen bs
    readSGEntries n bs (btreeInsert key vals acc)

/-- Length-prefixed vector of points. -/
def readVec (bs : List Nat) : Except String (List G × List Nat) := do
  let (n, bs) ← readU32 bs
  readGs n bs

/-- Presence flag followed by an optional length-prefixed vector. -/
def readOptVec (bs : List Nat) : Except String (Option (List G) × List Nat) := do
  let (flag, bs) ← readBool bs
  if flag then do
    let (n, bs) ← readU32 bs
    let (l, bs) ← readGs n bs
    Except.ok (some l, bs)
  else
    Except.ok (none, bs)

/-- Presence flag followed by an optional serialized map. -/
def readOptSG (bs : List Nat) :
    Except String (Option (List (Nat × List G)) × List Nat) := do
  let (flag, bs) ← readBool bs
  if flag then do
    let (n, bs) ← readU32 bs
    let (m, bs) ← readSGEntries n bs []
    Except.ok (some m, bs)
  else
    Except.ok (none, bs)

/-- Presence flag followed by an optional list of `u32` degree bounds. -/
def readOptEb (bs : List Nat) : Except String (Option (List Nat) × List Nat) := do
  let (flag, bs) ← readBool bs
  if flag then do
    let (n, bs) ← readU32 bs
    let (l, bs) ← readU32s n bs
    Except.ok (some l, bs)
  else
    Except.ok (none, bs)

/-- `impl FromBytes for CommitterKey::read_le`: parse each field in wire
order, recompute the digest from the decoded group elements, and fail with
the integrity error when it disagrees with the stored digest. -/
def CommitterKey.read_le (bs : List Nat) :
    Except String (CommitterKey × List Nat) := do
  let (powers, bs) ← readVec bs
  let (llen, bs) ← readU32 bs
  let (lagr, bs) ← readLagrEntries llen bs []
  let (gamma, bs) ← readVec bs
  let (shifted, bs) ← readOptVec bs
  let (shiftedGamma, bs) ← readOptSG bs
  let (eb, bs) ← readOptEb bs
  let (maxd, bs) ← readU32 bs
  let ck : CommitterKey := ⟨powers, lagr, gamma, shifted, shiftedGamma, eb, maxd⟩
  let hash := sha256 (hashInput ck)
  let (expected, bs) ← readBytes 32 bs
  if expected = hash then Except.ok (ck, bs)
  else Except.error "Mismatching group elements"

/-- The property `P` holds of the payload of `o`, vacuously for `none`. -/
def OptHolds {α : Type} (o : Option α) (P : α → Prop) : Prop :=
  match o with
  | some a => P a
  | none => True

instance optHolds_decidable {α : Type} (o : Option α) (P : α → Prop)
    [∀ a, Decidable (P a)] : Decidable (OptHolds o P) := by
  cases o with
  | none => exact isTrue trivial
  | some a => exact inferInstanceAs (Decidable (P a))

/-- The preconditions under which the wire format is faithful: map
representations are sorted (the `BTreeMap` invariant), every Lagrange entry
stores exactly as many elements as its key claims, and every count or value
written through an `as u32` cast actually fits in 32 bits. -/
def CommitterKey.WellFormed (ck : CommitterKey) : Prop :=
  ck.powers_of_beta_g.length < 4294967296 ∧
  ck.lagrange_bases_at_beta_g.length < 4294967296 ∧
  (ck.lagrange_bases_at_beta_g.map Prod.fst).Pairwise (· < ·) ∧
  (∀ kv ∈ ck.lagrange_bases_at_beta_g, kv.2.length = kv.1 ∧ kv.1 < 4294967296) ∧
  ck.powers_of_beta_times_gamma_g.length < 4294967296 ∧
  OptHolds ck.shifted_powers_of_beta_g (fun sp => sp.length < 4294967296) ∧
  OptHolds ck.shifted_powers_of_beta_times_gamma_g (fun m =>
    m.length < 4294967296 ∧ (m.map Prod.fst).Pairwise (· < ·) ∧
    ∀ kv ∈ m, kv.1 < 4294967296 ∧ kv.2.length < 4294967296) ∧
  OptHolds ck.enforced_degree_bounds (fun l =>
    l.length < 4294967296 ∧ ∀ b ∈ l, b < 4294967296) ∧
  ck.max_degree < 4294967296

instance wellformed_decidable (ck : CommitterKey) : Decidable ck.WellFormed := by
  unfold CommitterKey.WellFormed
  infer_instance

/-! ## CommitterKey::shifted_powers_of_beta_g and friends -/

/-- `kzg10::Powers`: a window of basis elements plus the hiding basis. -/
structure Powers where
  powers_of_beta_g : List G
  powers_of_beta_times_gamma_g : List G
deriving DecidableEq

/-- Rust slice indexing `v[start..]`: panics (modelled as an error) when the
start of the range exceeds the length. -/
def sliceFrom (v : List G) (start : Nat) : Except String (List G) :=
  if start ≤ v.length then .ok (v.drop start) else .error "slice index out of range"

/-- `CommitterKey::shifted_powers_of_beta_g(degree_bound)`.  Rust panics are
modelled as distinguishable errors: `unwrap` on the missing/empty
`enforced_degree_bounds`, the `assert!` on a non-enforced requested bound,
the slice range check, and the direct `BTreeMap` index.  Evaluation order
follows the source: `max_bound` unwraps first, then the assert, then the
slice, then the map index. -/
def CommitterKey.shifted_powers_of_beta_g' (ck : CommitterKey)
    (degree_bound : Option Nat) : Except String (Option Powers) :=
  match ck.shifted_powers_of_beta_g, ck.shifted_powers_of_beta_times_gamma_g with
  | some sp, some spg =>
    match ck.enforced_degree_bounds with
    | none => .error "called unwrap on a None value"
    | some eb =>
      match eb.getLast? with
      | none => .error "called unwrap on a None value"
      | some max_bound =>
        let bp : Except String (Nat × Nat) :=
          match degree_bound with
          | some d =>
            if d ∈ eb then .ok (d, max_bound - d)
            else .error "assertion failed"
          | none => .ok (max_bound, 0)
        match bp with
        | .error e => .error e
        | .ok (bound, start) =>
          match sliceFrom sp start with
          | .error e => .error e
          | .ok window =>
            match btreeFind spg bound with
            | none => .error "key not found"
            | some hidingBasis => .ok (some ⟨window, hidingBasis⟩)
  | _, _ => .ok none

/-! ## VerifierKey and binary search (`VerifierKey::get_shift_power`) -/

/-- Modelled from the spec: G2 curve points, carried opaquely. -/
abbrev G2 := Nat

/-- The verifier key; the inner `kzg10::VerifierKey` is external and not
needed by any claim, so only the remaining fields are modelled. -/
structure VerifierKey where
  degree_bounds_and_neg_powers_of_h : Option (List (Nat × G2))
  degree_bounds_and_prepared_neg_powers_of_h : Option (List (Nat × G2))
  supported_degree : Nat
  max_degree : Nat
deriving DecidableEq

/-- Rust `slice::binary_search_by` comparing entry keys against `d`.
Structural fuel makes the definition executable; the driver below supplies
fuel `hi - lo`, which the search never exhausts. -/
def bsAux (l : List (Nat × G2)) (d : Nat) : Nat → Nat → Nat → Option Nat
  | 0, _, _ => none
  | fuel + 1, lo, hi =>
    if lo < hi then
      let mid := lo + (hi - lo) / 2
      match l[mid]? with
      | none => none
      | some kv =>
        if kv.1 < d then bsAux l d fuel (mid + 1) hi
        else if d < kv.1 then bsAux l d fuel lo mid
        else some mid
    else none

/-- `binary_search_by(|(bound, _)| bound.cmp(&d))` over the whole slice. -/
def binarySearchKey (l : List (Nat × G2)) (d : Nat) : Option Nat :=
  bsAux l d l.length 0 l.length

/-- `VerifierKey::get_shift_power`: binary-search lookup returning the G2
element for the exact degree bound, `none` otherwise. -/
def VerifierKey.get_shift_power (vk : VerifierKey) (degree_bound : Nat) :
    Option G2 :=
  vk.degree_bounds_and_neg_powers_of_h.bind fun v =>
    (binarySearchKey v degree_bound).bind fun i => (v[i]?).map Prod.snd

/-! ## Commitment preparation (`impl Prepare for Commitment`) -/

/-- The doubling loop inside `Commitment::prepare`: push the current point,
then double in place, `n` times. -/
def prepareSteps {GG : Type} [AddCommMonoid GG] : Nat → GG → List GG
  | 0, _ => []
  | n + 1, cur => cur :: prepareSteps n (cur + cur)

/-- `Commitment::prepare`: the 128-step doubling ladder starting from the
commitment itself.  The affine/projective coercions of the source are
identities in the model; the group operation is the abstract addition. -/
def preparedCommitment {GG : Type} [AddCommMonoid GG] (c : GG) : List GG :=
  prepareSteps 128 c

/-! ## LabeledCommitment -/

/-- `LabeledCommitment<C>`: label, commitment and optional degree bound. -/
structure LabeledCommitment where
  label : String
  commitment : G
  degree_bound : Option Nat
deriving DecidableEq

/-- Modelled from the spec: the canonical compressed encoding of a bare
commitment (a single curve point), as produced by `serialize_compressed`. -/
def serializeCompressedCommitment (c : G) : List Nat := encG c

/-- `impl ToBytes for LabeledCommitment::write_le`: serializes only the raw
commitment, dropping label and degree bound.  No `FromBytes` exists. -/
def LabeledCommitment.write_le (lc : LabeledCommitment) : List Nat :=
  serializeCompressedCommitment lc.commitment

/-! ## LinearCombination / LCTerm -/

/-- A term in a linear combination: the constant `One` or a polynomial
label. -/
inductive LCTerm
  | One
  | PolyLabel (s : String)
deriving DecidableEq

/-- The derived total order on `LCTerm`: `One` sorts before every label,
labels compare as strings. -/
def LCTerm.cmp : LCTerm → LCTerm → Ordering
  | .One, .One => .eq
  | .One, .PolyLabel _ => .lt
  | .PolyLabel _, .One => .gt
  | .PolyLabel a, .PolyLabel b =>
    if a = b then .eq else if a < b then .lt else .gt

/-- Strict order induced by `LCTerm.cmp`, used for the `BTreeMap`
representation invariant. -/
def LCTerm.lt (a b : LCTerm) : Prop := LCTerm.cmp a b = .lt

instance decidable_lcterm_lt : DecidableRel LCTerm.lt := fun a b => by
  unfold LCTerm.lt
  infer_instance

/-- `BTreeMap::entry(t).or_insert(zero) += c` on the sorted association-list
representation: add `c` to the coefficient of `t`, inserting `t` with
coefficient `0 + c = c` when absent. -/
def entryAddCoeff {F : Type} [Field F] (t : LCTerm) (c : F) :
    List (LCTerm × F) → List (LCTerm × F)
  | [] => [(t, c)]
  | (t', c') :: rest =>
    match LCTerm.cmp t t' with
    | .lt => (t, c) :: (t', c') :: rest
    | .eq => (t', c' + c) :: rest
    | .gt => (t', c') :: entryAddCoeff t c rest

/-- `BTreeMap::remove(t)` on the sorted association-list representation. -/
def removeTerm {F : Type} (t : LCTerm) : List (LCTerm × F) → List (LCTerm × F)
  | [] => []
  | (t', c') :: rest => if t = t' then rest else (t', c') :: removeTerm t rest

/-- Coefficient lookup. -/
def lcLookup {F : Type} (terms : List (LCTerm × F)) (t : LCTerm) : Option F :=
  (terms.find? (fun p => p.1 = t)).map (fun p => p.2)

/-- `LinearCombination<F>`: a label plus the term → coefficient mapping. -/
structure LinearCombination (F : Type) where
  label : String
  terms : List (LCTerm × F)

/-- `LinearCombination::empty`. -/
def LinearCombination.empty {F : Type} (label : String) : LinearCombination F :=
  ⟨label, []⟩

/-- `LinearCombination::new`: merge duplicate terms by summing coefficients;
note that no zero-coefficient pruning happens on this path. -/
def LinearCombination.new {F : Type} [Field F] (label : String)
    (ts : List (F × LCTerm)) : LinearCombination F :=
  ⟨label, ts.foldl (fun acc p => entryAddCoeff p.2 p.1 acc) []⟩

/-- `LinearCombination::add`: add `c` to the coefficient of `t`, then remove
the term if its coefficient became exactly zero. -/
def LinearCombination.add {F : Type} [Field F] [DecidableEq F]
    (lc : LinearCombination F) (c : F) (t : LCTerm) : LinearCombination F :=
  match lcLookup (entryAddCoeff t c lc.terms) t with
  | some v =>
    if v = 0 then ⟨lc.label, removeTerm t (entryAddCoeff t c lc.terms)⟩
    else ⟨lc.label, entryAddCoeff t c lc.terms⟩
  | none => ⟨lc.label, entryAddCoeff t c lc.terms⟩

/-- `self += (coeff, other)`: scaled addition, implemented via repeated
`add` over `other`'s terms in order. -/
def LinearCombination.addAssignScaled {F : Type} [Field F] [DecidableEq F]
    (lc : LinearCombination F) (coeff : F) (other : LinearCombination F) :
    LinearCombination F :=
  other.terms.foldl (fun acc p => acc.add (coeff * p.2) p.1) lc

/-- `self -= (coeff, other)`. -/
def LinearCombination.subAssignScaled {F : Type} [Field F] [DecidableEq F]
    (lc : LinearCombination F) (coeff : F) (other : LinearCombination F) :
    LinearCombination F :=
  other.terms.foldl (fun acc p => acc.add (-coeff * p.2) p.1) lc

/-- `self += other`. -/
def LinearCombination.addAssignLC {F : Type} [Field F] [DecidableEq F]
    (lc : LinearCombination F) (other : LinearCombination F) :
    LinearCombination F :=
  other.terms.foldl (fun acc p => acc.add p.2 p.1) lc

/-- `self -= other`. -/
def LinearCombination.subAssignLC {F : Type} [Field F] [DecidableEq F]
    (lc : LinearCombination F) (other : LinearCombination F) :
    LinearCombination F :=
  other.terms.foldl (fun acc p => acc.add (-p.2) p.1) lc

/-- `self += constant`: added against the distinguished `One` term. -/
def LinearCombination.addAssignConst {F : Type} [Field F] [DecidableEq F]
    (lc : LinearCombination F) (c : F) : LinearCombination F :=
  lc.add c .One

/-- `self -= constant`. -/
def LinearCombination.subAssignConst {F : Type} [Field F] [DecidableEq F]
    (lc : LinearCombination F) (c : F) : LinearCombination F :=
  lc.add (-c) .One

/-- `self *= coeff`: scale every coefficient in place; nothing is pruned on
this path. -/
def LinearCombination.mulAssign {F : Type} [Field F]
    (lc : LinearCombination F) (coeff : F) : LinearCombination F :=
  ⟨lc.label, lc.terms.map (fun p => (p.1, p.2 * coeff))⟩

/-- The no-zero-coefficient invariant of the term mapping. -/
def LinearCombination.NoZeroCoeffs {F : Type} [Field F]
    (lc : LinearCombination F) : Prop :=
  ∀ p ∈ lc.terms, p.2 ≠ (0 : F)

/-- The `BTreeMap` representation invariant: term keys strictly sorted. -/
def LinearCombination.TermsSorted {F : Type} (lc : LinearCombination F) : Prop :=
  (lc.terms.map Prod.fst).Pairwise LCTerm.lt

instance decidable_no_zero_coeffs {F : Type} [Field F] [DecidableEq F]
    (lc : LinearCombination F) : Decidable lc.NoZeroCoeffs := by
  unfold LinearCombination.NoZeroCoeffs
  infer_instance

instance decidable_terms_sorted {F : Type} (lc : LinearCombination F) :
    Decidable lc.TermsSorted := by
  unfold LinearCombination.TermsSorted
  infer_instance

/-! ## QuerySet / Evaluations (`evaluate_query_set`) -/

/-- Modelled from the spec: a `LabeledPolynomial` is a polynomial (dense
coefficient list, constant term first) plus its label and optional degree
bound. -/
structure LabeledPolynomial (F : Type) where
  label : String
  polynomial : List F
  degree_bound : Option Nat

/-- Modelled from the spec: polynomial evaluation of the dense coefficient
form (Horner). -/
def evalPoly {F : Type} [Field F] (coeffs : List F) (x : F) : F :=
  coeffs.foldr (fun c acc => c + x * acc) 0

/-- The label → polynomial `HashMap` built by `evaluate_query_set`; a later
duplicate label overwrites an earlier one, hence lookup by last occurrence. -/
def polyMapFind {F : Type} (polys : List (LabeledPolynomial F)) (l : String) :
    Option (LabeledPolynomial F) :=
  polys.reverse.find? (fun p => p.label = l)

/-- Insert into the `Evaluations` map, replacing an existing binding of the
same `(label, point)` key. -/
def insertEval {F : Type} [DecidableEq F]
    (evals : List ((String × F) × F)) (k : String × F) (v : F) :
    List ((String × F) × F) :=
  match evals with
  | [] => [(k, v)]
  | (k', v') :: rest =>
    if k' = k then (k, v) :: rest else (k', v') :: insertEval rest k v

/-- `Evaluations` lookup. -/
def evalsLookup {F : Type} [DecidableEq F]
    (evals : List ((String × F) × F)) (k : String × F) : Option F :=
  (evals.find? (fun p => p.1 = k)).map (fun p => p.2)

/-- 101 is prime, so `ZMod 101` is the concrete field used by witnesses. -/
instance fact_prime_101 : Fact (Nat.Prime 101) := ⟨by norm_num⟩

/-- `evaluate_query_set(polys, query_set)`: for every
`(label, (point_name, point))` query, evaluate the matching polynomial at
`point` and record the result under the key `(label, point)`; a query whose
label has no matching polynomial halts with the `expect` message. -/
def evaluate_query_set {F : Type} [Field F] [DecidableEq F]
    (polys : List (LabeledPolynomial F)) (query_set : List (String × String × F)) :
    Except String (List ((String × F) × F)) :=
  query_set.foldlM
    (fun evals q =>
      match polyMapFind polys q.1 with
      | none => .error "polynomial in evaluated lc is not found"
      | some p => .ok (insertEval evals (q.1, q.2.2) (evalPoly p.polynomial q.2.2)))
    []

/-! ## Hashed-region machinery for the integrity-flip theorem

A byte of a serialized committer key lies "inside the region holding the
digest-covered group elements" exactly when it is byte `j` (0 ≤ j < 4) of the
encoding of one of: `powers_of_beta_g[i]`, `powers_of_beta_times_gamma_g[i]`,
`shifted_powers_of_beta_g[i]`, or element `i` of the `e`-th entry of
`shifted_powers_of_beta_times_gamma_g`.  `GSel` names such an element,
`posOfSel` gives the byte offset of its encoding inside `write_le`'s output,
and `replaceSel` substitutes a new element at that spot. -/

/-- Default curve point used by total `getD` accessors. -/
def gdefault : G := ⟨0, by norm_num⟩

/-- A selector naming one digest-covered group element of a serialized key. -/
inductive GSel
  | pw (i : Nat)
  | gam (i : Nat)
  | sh (i : Nat)
  | shg (e i : Nat)

/-- The selector denotes an element that actually exists in the key. -/
def SelValid (ck : CommitterKey) : GSel → Prop
  | .pw i => i < ck.powers_of_beta_g.length
  | .gam i => i < ck.powers_of_beta_times_gamma_g.length
  | .sh i => ∃ sp, ck.shifted_powers_of_beta_g = some sp ∧ i < sp.length
  | .shg e i => ∃ m kv, ck.shifted_powers_of_beta_times_gamma_g = some m ∧
      m[e]? = some kv ∧ i < kv.2.length

/-- The selected group element. -/
def elemAtSel (ck : CommitterKey) : GSel → G
  | .pw i => ck.powers_of_beta_g.getD i gdefault
  | .gam i => ck.powers_of_beta_times_gamma_g.getD i gdefault
  | .sh i => (ck.shifted_powers_of_beta_g.getD []).getD i gdefault
  | .shg e i =>
      (((ck.shifted_powers_of_beta_times_gamma_g.getD []).getD e (0, [])).2).getD i gdefault

/-- Replace entry `e` of an association list in place. -/
def modifyAt (l : List (Nat × List G)) (e : Nat)
    (f : Nat × List G → Nat × List G) : List (Nat × List G) :=
  match l[e]? with
  | some x => l.set e (f x)
  | none => l

/-- The key with the selected group element replaced by `g`. -/
def replaceSel (ck : CommitterKey) : GSel → G → CommitterKey
  | .pw i, g => { ck with powers_of_beta_g := ck.powers_of_beta_g.set i g }
  | .gam i, g =>
      { ck with powers_of_beta_times_gamma_g := ck.powers_of_beta_times_gamma_g.set i g }
  | .sh i, g =>
      { ck with shifted_powers_of_beta_g := Option.map (fun sp => sp.set i g) ck.shifted_powers_of_beta_g }
  | .shg e i, g =>
      { ck with shifted_powers_of_beta_times_gamma_g := Option.map (fun m => modifyAt m e (fun kv => (kv.1, kv.2.set i g))) ck.shifted_powers_of_beta_times_gamma_g }

/-- Byte offset, inside `write_le`'s output, of the encoding of the selected
element: the lengths of all serialized segments written before it, plus 4
bytes per preceding element of its own vector (plus, for a map entry, the 8
prefix bytes of key and count). -/
def posOfSel (ck : CommitterKey) : GSel → Nat
  | .pw i => 4 + 4 * i
  | .gam i =>
      (writeVec ck.powers_of_beta_g).length +
      (writeLagr ck.lagrange_bases_at_beta_g).length + 4 + 4 * i
  | .sh i =>
      (writeVec ck.powers_of_beta_g).length +
      (writeLagr ck.lagrange_bases_at_beta_g).length +
      (writeVec ck.powers_of_beta_times_gamma_g).length + 1 + 4 + 4 * i
  | .shg e i =>
      (writeVec ck.powers_of_beta_g).length +
      (writeLagr ck.lagrange_bases_at_beta_g).length +
      (writeVec ck.powers_of_beta_times_gamma_g).length +
      (writeOptVec ck.shifted_powers_of_beta_g).length + 1 + 4 +
      ((((ck.shifted_powers_of_beta_times_gamma_g.getD []).take e).map
          sgEntryBytes).flatten).length + 8 + 4 * i

/-- Byte `j` (little-endian) of the canonical encoding of the selected
element. -/
def byteAtSel (ck : CommitterKey) (sel : GSel) (j : Nat) : Nat :=
  (elemAtSel ck sel).val / 256 ^ j % 256

/-- Drop a 4-byte block back to its value (0 on malformed input). -/
def dec4l : List Nat → Nat
  | b0 :: b1 :: b2 :: b3 :: _ => dec4 b0 b1 b2 b3
  | _ => 0

/-- The curve point whose encoding is `encG g` with byte `j` replaced by
`b`. -/
def byteSetG (g : G) (j b : Nat) : G :=
  ⟨dec4l ((encG g).set j b) % 4294967296, Nat.mod_lt _ (by norm_num)⟩

/-! ## Concrete example keys used by counterexamples and witnesses -/

/-- A committer key whose Lagrange entry claims size 1 but stores no
elements: the wire format reuses the map key as the element count, so the
round trip breaks. -/
def ckLagrMismatch : CommitterKey := ⟨[], [(1, [])], [], none, none, none, 0⟩

/-- A well-formed committer key with one single-element Lagrange entry;
its basis element starts at byte offset 12 of the serialized form. -/
def ckLagrOne : CommitterKey := ⟨[], [(1, [0])], [], none, none, none, 0⟩

/-- A committer key with degree-bound support for the single bound 2. -/
def ckBound2 : CommitterKey := ⟨[], [], [], some [0], some [(2, [0])], some [2], 5⟩

/-- A committer key with enforced bounds 1 < 3, a shifted basis of length
`3 + 1`, and hiding entries for both bounds. -/
def ckWindow : CommitterKey :=
  ⟨[], [], [], some [0, 0, 0, 0], some [(1, [1]), (3, [2])], some [1, 3], 9⟩

/-- A committer key with no degree-bound support. -/
def ckNoSupport : CommitterKey := ⟨[], [], [], none, none, none, 0⟩

/-- A fully populated well-formed committer key. -/
def ckFull : CommitterKey :=
  ⟨[1], [(1, [2])], [3], some [4], some [(0, [5])], some [0], 7⟩

/-- A well-formed committer key without optional parts. -/
def ckPlain : CommitterKey := ⟨[6], [], [7], none, none, none, 3⟩

/-- A well-formed committer key with a single basis element. -/
def ckOnePower : CommitterKey := ⟨[1], [], [], none, none, none, 0⟩

/-- A verifier key with two sorted degree-bound pairs. -/
def vkTwoBounds : VerifierKey := ⟨some [(2, 20), (5, 50)], some [(2, 21), (5, 51)], 9, 9⟩

/-! ## General list helpers -/

theorem list_set_append_right {α : Type} (A Y : List α) (j : Nat) (b : α) :
    (A ++ Y).set (A.length + j) b = A ++ Y.set j b := by
  induction A with
  | nil => simp
  | cons a A ih => simp [Nat.succ_add, ih]

theorem list_set_append_left {α : Type} (A Y : List α) (j : Nat) (b : α)
    (h : j < A.length) : (A ++ Y).set j b = A.set j b ++ Y := by
  induction A generalizing j with
  | nil => simp at h
  | cons a A ih =>
    cases j with
    | zero => simp
    | succ j => simpa using ih j (by simpa using h)

theorem list_set_eq_take_cons_drop {α : Type} (l : List α) (j : Nat) (b : α)
    (h : j < l.length) : l.set j b = l.take j ++ b :: l.drop (j + 1) := by
  induction l generalizing j with
  | nil => simp at h
  | cons a l ih =>
    cases j with
    | zero => simp
    | succ j => simpa using ih j (by simpa using h)

theorem list_eq_take_cons_drop {α : Type} (l : List α) (j : Nat) (d : α)
    (h : j < l.length) : l = l.take j ++ l.getD j d :: l.drop (j + 1) := by
  induction l generalizing j with
  | nil => simp at h
  | cons a l ih =>
    cases j with
    | zero => simp
    | succ j => simpa using ih j (by simpa using h)

theorem list_getD_append_right {α : Type} (A Y : List α) (j : Nat) (d : α) :
    (A ++ Y).getD (A.length + j) d = Y.getD j d := by
  induction A with
  | nil => simp
  | cons a A ih => simpa [Nat.succ_add] using ih

/-! ## Claim C6: the prepared-commitment doubling ladder -/

theorem prepareSteps_length {GG : Type} [AddCommMonoid GG] (n : Nat) (c : GG) :
    (prepareSteps n c).length = n := by
  induction n generalizing c with
  | zero => rfl
  | succ n ih => simp [prepareSteps, ih]

theorem prepareSteps_getElem {GG : Type} [AddCommMonoid GG] (n : Nat) (c : GG)
    (i : Nat) (h : i < n) : (prepareSteps n c)[i]? = some ((2 ^ i) • c) := by
  induction n generalizing c i with
  | zero => omega
  | succ n ih =>
    cases i with
    | zero => simp [prepareSteps]
    | succ i =>
      have h2 : (prepareSteps n (c + c))[i]? = some (2 ^ i • (c + c)) :=
        ih (c + c) i (by omega)
      have h3 : (2 : ℕ) ^ i • (c + c) = 2 ^ (i + 1) • c := by
        rw [← two_nsmul, smul_smul, ← pow_succ]
      simp only [prepareSteps, List.getElem?_cons_succ, h2, h3]

/-- Claim C6: `Commitment::prepare` returns exactly 128 elements, and for
every `i < 128` the `i`-th element equals `2^i` times the original
commitment, as produced by repeated doubling starting from the commitment
itself. -/
theorem prepared_commitment_doubling_ladder {GG : Type} [AddCommMonoid GG]
    (c : GG) (i : Nat) (h : i < 128) :
    (preparedCommitment c).length = 128 ∧
    (preparedCommitment c)[i]? = some ((2 ^ i) • c) :=
  ⟨prepareSteps_length 128 c, prepareSteps_getElem 128 c i h⟩

/-- Witness for C6 at a concrete input: the ladder of the integer
commitment 3 has `2^5 • 3 = 96` at index 5. -/
theorem prepared_commitment_doubling_ladder_witness :
    5 < 128 ∧
    ((preparedCommitment (3 : ℤ)).length = 128 ∧
      (preparedCommitment (3 : ℤ))[5]? = some ((2 ^ 5) • (3 : ℤ))) :=
  ⟨by norm_num, prepared_commitment_doubling_ladder (3 : ℤ) 5 (by norm_num)⟩

/-! ## Claim C8: labeled-commitment serialization asymmetry -/

/-- Claim C8: `LabeledCommitment::write_le` writes only the raw commitment —
its output equals the compressed encoding of the bare commitment, so keys
with any label and any degree bound serialize byte-identically. -/
theorem labeled_commitment_write_le_drops_label (l1 l2 : String)
    (b1 b2 : Option Nat) (c : G) :
    (LabeledCommitment.mk l1 c b1).write_le = serializeCompressedCommitment c ∧
    (LabeledCommitment.mk l1 c b1).write_le = (LabeledCommitment.mk l2 c b2).write_le :=
  ⟨rfl, rfl⟩

/-! ## Claim C5: evaluate_query_set -/

theorem evalsLookup_insertEval_self {F : Type} [DecidableEq F]
    (evals : List ((String × F) × F)) (k : String × F) (v : F) :
    evalsLookup (insertEval evals k v) k = some v := by
  induction evals with
  | nil => simp [insertEval, evalsLookup]
  | cons p rest ih =>
    by_cases h : p.1 = k
    · simp [insertEval, evalsLookup, h]
    · cases p with
      | mk k' v' =>
        simp only at h
        simp [insertEval, evalsLookup, h, List.find?] at ih ⊢
        simpa [evalsLookup, List.find?] using ih

theorem evalsLookup_insertEval_other {F : Type} [DecidableEq F]
    (evals : List ((String × F) × F)) (k k' : String × F) (v : F)
    (h : k' ≠ k) :
    evalsLookup (insertEval evals k v) k' = evalsLookup evals k' := by
  induction evals with
  | nil => simp [insertEval, evalsLookup, List.find?, Ne.symm h]
  | cons p rest ih =>
    cases p with
    | mk k0 v0 =>
      by_cases h0 : k0 = k
      · subst h0
        simp [insertEval, evalsLookup, List.find?, Ne.symm h]
      · by_cases h1 : k0 = k'
        · subst h1
          simp [insertEval, evalsLookup, List.find?, h0]
        · simp only [insertEval, if_neg h0]
          simp only [evalsLookup, List.find?] at ih ⊢
          simp only [show (decide (k0 = k')) = false from by simp [h1]]
          simpa [evalsLookup] using ih

theorem insertEval_mem_keys {F : Type} [DecidableEq F]
    (evals : List ((String × F) × F)) (k k0 : String × F) (v : F)
    (h : k0 ∈ (insertEval evals k v).map Prod.fst) :
    k0 = k ∨ k0 ∈ evals.map Prod.fst := by
  induction evals with
  | nil =>
    simp [insertEval] at h
    exact Or.inl h
  | cons p rest ih =>
    rcases p with ⟨k', v'⟩
    by_cases hk : k' = k
    · subst hk
      simp only [insertEval, if_pos rfl, List.map_cons] at h
      rcases List.mem_cons.mp h with h | h
      · exact Or.inl h
      · exact Or.inr (List.mem_cons.mpr (Or.inr h))
    · simp only [insertEval, if_neg hk, List.map_cons] at h
      rcases List.mem_cons.mp h with h | h
      · exact Or.inr (List.mem_cons.mpr (Or.inl h))
      · rcases ih h with h | h
        · exact Or.inl h
        · exact Or.inr (List.mem_cons.mpr (Or.inr h))

theorem insertEval_keys_nodup {F : Type} [DecidableEq F]
    (evals : List ((String × F) × F)) (k : String × F) (v : F)
    (h : (evals.map Prod.fst).Nodup) :
    ((insertEval evals k v).map Prod.fst).Nodup := by
  induction evals with
  | nil => simp [insertEval]
  | cons p rest ih =>
    rcases p with ⟨k', v'⟩
    simp only [List.map_cons, List.nodup_cons] at h
    by_cases hk : k' = k
    · subst hk
      have hins : insertEval ((k', v') :: rest) k' v = (k', v) :: rest := by
        simp [insertEval]
      rw [hins, List.map_cons, List.nodup_cons]
      exact ⟨h.1, h.2⟩
    · simp only [insertEval, if_neg hk, List.map_cons, List.nodup_cons]
      refine ⟨?_, ih h.2⟩
      intro hmem
      rcases insertEval_mem_keys rest k k' v hmem with h1 | h1
      · exact hk h1
      · exact h.1 h1

theorem except_bind_ok {α β : Type} (a : α) (f : α → Except String β) :
    (Except.ok a >>= f) = f a := rfl

theorem except_bind_error {α β : Type} (e : String) (f : α → Except String β) :
    ((Except.error e : Except String α) >>= f) = Except.error e := rfl

theorem polyMapFind_isSome_iff {F : Type} (polys : List (LabeledPolynomial F))
    (l : String) :
    (polyMapFind polys l).isSome ↔ ∃ p ∈ polys, p.label = l := by
  unfold polyMapFind
  rw [List.find?_isSome]
  simp [List.mem_reverse]

theorem polyMapFind_eq_none_iff {F : Type} (polys : List (LabeledPolynomial F))
    (l : String) :
    polyMapFind polys l = none ↔ ∀ p ∈ polys, p.label ≠ l := by
  unfold polyMapFind
  rw [List.find?_eq_none]
  simp [List.mem_reverse]

theorem eqs_fold_ok {F : Type} [Field F] [DecidableEq F]
    (polys : List (LabeledPolynomial F)) (qs : List (String × String × F)) :
    ∀ acc : List ((String × F) × F),
      (∀ q ∈ qs, ∃ p ∈ polys, p.label = q.1) →
      ∃ evals,
        (qs.foldlM (fun evals q =>
            match polyMapFind polys q.1 with
            | none => Except.error "polynomial in evaluated lc is not found"
            | some p =>
                Except.ok (insertEval evals (q.1, q.2.2) (evalPoly p.polynomial q.2.2)))
          acc) = Except.ok evals ∧
        (∀ q ∈ qs, ∀ p, polyMapFind polys q.1 = some p →
          evalsLookup evals (q.1, q.2.2) = some (evalPoly p.polynomial q.2.2)) ∧
        (∀ k, (∀ q ∈ qs, (q.1, q.2.2) ≠ k) → evalsLookup evals k = evalsLookup acc k) ∧
        ((acc.map Prod.fst).Nodup → (evals.map Prod.fst).Nodup) := by
  induction qs with
  | nil =>
    intro acc _
    exact ⟨acc, rfl, by simp, fun k _ => rfl, fun h => h⟩
  | cons q rest ih =>
    intro acc hall
    obtain ⟨p0, hp0mem, hp0lab⟩ := hall q (List.mem_cons_self q rest)
    obtain ⟨p0', hp0'⟩ := Option.isSome_iff_exists.mp
      ((polyMapFind_isSome_iff polys q.1).mpr ⟨p0, hp0mem, hp0lab⟩)
    have hstep : ∀ (a : List ((String × F) × F)),
        (match polyMapFind polys q.1 with
          | none => Except.error "polynomial in evaluated lc is not found"
          | some p =>
              Except.ok (insertEval a (q.1, q.2.2) (evalPoly p.polynomial q.2.2)))
          = Except.ok (insertEval a (q.1, q.2.2) (evalPoly p0'.polynomial q.2.2)) := by
      intro a
      rw [hp0']
    obtain ⟨evals, hfold, hmain, hframe, hnodup⟩ :=
      ih (insertEval acc (q.1, q.2.2) (evalPoly p0'.polynomial q.2.2))
        (fun q' hq' => hall q' (List.mem_cons_of_mem q hq'))
    refine ⟨evals, ?_, ?_, ?_, ?_⟩
    · rw [List.foldlM_cons, hstep, except_bind_ok, hfold]
    · intro q' hq' p hp
      rcases List.mem_cons.mp hq' with hq' | hq'
      · subst hq'
        have hpp : p = p0' := by
          rw [hp0'] at hp
          exact (Option.some.inj hp).symm
        by_cases hex : ∃ q'' ∈ rest, (q''.1, q''.2.2) = ((q'.1 : String), q'.2.2)
        · obtain ⟨q'', hq''mem, hq''key⟩ := hex
          obtain ⟨h1, h2⟩ := Prod.mk.inj hq''key
          have h3 := hmain q'' hq''mem p (by rw [h1]; exact hp)
          rw [h1, h2] at h3
          exact h3
        · push_neg at hex
          rw [hframe ((q'.1 : String), q'.2.2) hex, hpp]
          exact evalsLookup_insertEval_self acc (q'.1, q'.2.2)
            (evalPoly p0'.polynomial q'.2.2)
      · exact hmain q' hq' p hp
    · intro k hk
      rw [hframe k (fun q' hq' => hk q' (List.mem_cons_of_mem q hq'))]
      exact evalsLookup_insertEval_other acc (q.1, q.2.2) k
        (evalPoly p0'.polynomial q.2.2) (fun h => hk q (List.mem_cons_self q rest) h.symm)
    · intro hacc
      exact hnodup (insertEval_keys_nodup acc (q.1, q.2.2)
        (evalPoly p0'.polynomial q.2.2) hacc)

theorem eqs_fold_error {F : Type} [Field F] [DecidableEq F]
    (polys : List (LabeledPolynomial F)) (qs : List (String × String × F)) :
    ∀ acc : List ((String × F) × F),
      (∃ q ∈ qs, polyMapFind polys q.1 = none) →
      ∃ e, (qs.foldlM (fun evals q =>
          match polyMapFind polys q.1 with
          | none => Except.error "polynomial in evaluated lc is not found"
          | some p =>
              Except.ok (insertEval evals (q.1, q.2.2) (evalPoly p.polynomial q.2.2)))
        acc) = Except.error e := by
  induction qs with
  | nil =>
    intro acc h
    simp at h
  | cons q rest ih =>
    intro acc hex
    by_cases hhead : polyMapFind polys q.1 = none
    · refine ⟨"polynomial in evaluated lc is not found", ?_⟩
      rw [List.foldlM_cons, hhead]
      rfl
    · obtain ⟨p0', hp0'⟩ :=
        Option.isSome_iff_exists.mp (Option.ne_none_iff_isSome.mp hhead)
      obtain ⟨q', hq', hq'none⟩ := hex
      rcases List.mem_cons.mp hq' with hq' | hq'
      · subst hq'
        exact absurd hq'none hhead
      · obtain ⟨e, he⟩ :=
          ih (insertEval acc (q.1, q.2.2) (evalPoly p0'.polynomial q.2.2))
            ⟨q', hq', hq'none⟩
        refine ⟨e, ?_⟩
        rw [List.foldlM_cons, hp0', except_bind_ok]
        exact he

/-- Claim C5: `evaluate_query_set` produces, for each
`(label, (point_name, point))` query, exactly one output entry keyed by
`(label, point)` (the point name is not part of the key) whose value is the
matching polynomial evaluated at the point; when every query label occurs
among the supplied polynomials the call succeeds, and when some label is
absent it halts with an error (the `expect` precondition violation). -/
theorem evaluate_query_set_correct {F : Type} [Field F] [DecidableEq F]
    (polys : List (LabeledPolynomial F)) (qs : List (String × String × F)) :
    ((∀ q ∈ qs, ∃ p ∈ polys, p.label = q.1) →
      ∃ evals, evaluate_query_set polys qs = Except.ok evals ∧
        (∀ q ∈ qs, ∀ p, polyMapFind polys q.1 = some p →
          evalsLookup evals (q.1, q.2.2) = some (evalPoly p.polynomial q.2.2)) ∧
        (evals.map Prod.fst).Nodup) ∧
    ((∃ q ∈ qs, ∀ p ∈ polys, p.label ≠ q.1) →
      ∃ e, evaluate_query_set polys qs = Except.error e) := by
  constructor
  · intro hall
    obtain ⟨evals, hfold, hmain, _, hnodup⟩ := eqs_fold_ok polys qs [] hall
    exact ⟨evals, hfold, hmain, hnodup (by simp)⟩
  · intro ⟨q, hq, habs⟩
    exact eqs_fold_error polys qs []
      ⟨q, hq, (polyMapFind_eq_none_iff polys q.1).mpr habs⟩

/-- Witness for C5 at the spec's concrete example over `ZMod 101`: the
polynomial `x^2 + 1` labelled `p`, queried at the named point `("z", 3)`,
evaluates to 10 under the key `("p", 3)`. -/
theorem evaluate_query_set_witness :
    (∀ q ∈ [("p", ("z", (3 : ZMod 101)))],
      ∃ lp ∈ [LabeledPolynomial.mk "p" [1, 0, 1] none], lp.label = q.1) ∧
    (∃ evals,
      evaluate_query_set [LabeledPolynomial.mk "p" [(1 : ZMod 101), 0, 1] none]
        [("p", ("z", (3 : ZMod 101)))] = Except.ok evals ∧
      (∀ q ∈ [("p", ("z", (3 : ZMod 101)))], ∀ p,
        polyMapFind [LabeledPolynomial.mk "p" [(1 : ZMod 101), 0, 1] none] q.1 = some p →
        evalsLookup evals (q.1, q.2.2) = some (evalPoly p.polynomial q.2.2)) ∧
      (evals.map Prod.fst).Nodup) :=
  ⟨by decide,
    (evaluate_query_set_correct
      [LabeledPolynomial.mk "p" [(1 : ZMod 101), 0, 1] none]
      [("p", ("z", (3 : ZMod 101)))]).1 (by decide)⟩

/-! ## Claim C7: LinearCombination zero-coefficient pruning -/

theorem lcterm_cmp_poly (s t : String) :
    LCTerm.cmp (.PolyLabel s) (.PolyLabel t) =
      if s = t then .eq else if s < t then .lt else .gt := rfl

theorem lcterm_cmp_poly_lt_iff (s t : String) :
    LCTerm.cmp (.PolyLabel s) (.PolyLabel t) = .lt ↔ s < t := by
  rw [lcterm_cmp_poly]
  by_cases h1 : s = t
  · subst h1
    simp [lt_irrefl]
  · rw [if_neg h1]
    by_cases h2 : s < t
    · rw [if_pos h2]
      simp [h2]
    · rw [if_neg h2]
      simp [h2]

theorem lcterm_cmp_poly_gt_iff (s t : String) :
    LCTerm.cmp (.PolyLabel s) (.PolyLabel t) = .gt ↔ t < s := by
  rw [lcterm_cmp_poly]
  by_cases h1 : s = t
  · subst h1
    simp [lt_irrefl]
  · rw [if_neg h1]
    by_cases h2 : s < t
    · rw [if_pos h2]
      simp [asymm h2]
    · have h3 : t < s := by
        rcases lt_trichotomy s t with h | h | h
        · exact absurd h h2
        · exact absurd h h1
        · exact h
      rw [if_neg h2]
      simp [h3]

theorem lcterm_cmp_eq_iff (a b : LCTerm) : LCTerm.cmp a b = .eq ↔ a = b := by
  cases a with
  | One =>
    cases b with
    | One => simp [LCTerm.cmp]
    | PolyLabel t => simp [LCTerm.cmp]
  | PolyLabel s =>
    cases b with
    | One => simp [LCTerm.cmp]
    | PolyLabel t =>
      rw [lcterm_cmp_poly]
      by_cases h1 : s = t
      · simp [h1]
      · rw [if_neg h1]
        by_cases h2 : s < t
        · rw [if_pos h2]
          simp [h1]
        · rw [if_neg h2]
          simp [h1]

theorem lcterm_lt_irrefl (a : LCTerm) : ¬ LCTerm.lt a a := by
  intro h
  rw [LCTerm.lt, (lcterm_cmp_eq_iff a a).mpr rfl] at h
  exact Ordering.noConfusion h

theorem lcterm_cmp_gt_iff (a b : LCTerm) :
    LCTerm.cmp a b = .gt ↔ LCTerm.lt b a := by
  cases a with
  | One =>
    cases b with
    | One => simp [LCTerm.cmp, LCTerm.lt]
    | PolyLabel t => simp [LCTerm.cmp, LCTerm.lt]
  | PolyLabel s =>
    cases b with
    | One => simp [LCTerm.cmp, LCTerm.lt]
    | PolyLabel t =>
      rw [LCTerm.lt, lcterm_cmp_poly_gt_iff, lcterm_cmp_poly_lt_iff]

theorem lcterm_lt_trans (a b c : LCTerm) :
    LCTerm.lt a b → LCTerm.lt b c → LCTerm.lt a c := by
  cases a with
  | One =>
    cases b with
    | One =>
      intro h1
      exact absurd h1 (lcterm_lt_irrefl _)
    | PolyLabel t =>
      cases c with
      | One =>
        intro _ h2
        rw [LCTerm.lt] at h2
        simp [LCTerm.cmp] at h2
      | PolyLabel u =>
        intro _ _
        rw [LCTerm.lt]
        rfl
  | PolyLabel s =>
    cases b with
    | One =>
      intro h1
      rw [LCTerm.lt] at h1
      simp [LCTerm.cmp] at h1
    | PolyLabel t =>
      cases c with
      | One =>
        intro _ h2
        rw [LCTerm.lt] at h2
        simp [LCTerm.cmp] at h2
      | PolyLabel u =>
        rw [LCTerm.lt, LCTerm.lt, LCTerm.lt, lcterm_cmp_poly_lt_iff,
          lcterm_cmp_poly_lt_iff, lcterm_cmp_poly_lt_iff]
        exact lt_trans

theorem mem_entryAddCoeff {F : Type} [Field F] (t : LCTerm) (c : F)
    (l : List (LCTerm × F)) (p : LCTerm × F) (hp : p ∈ entryAddCoeff t c l) :
    p.1 = t ∨ p ∈ l := by
  induction l with
  | nil =>
    simp [entryAddCoeff] at hp
    subst hp
    exact Or.inl rfl
  | cons q rest ih =>
    rcases q with ⟨t', c'⟩
    cases hcmp : LCTerm.cmp t t' with
    | lt =>
      simp only [entryAddCoeff, hcmp] at hp
      rcases List.mem_cons.mp hp with hp | hp
      · subst hp
        exact Or.inl rfl
      · exact Or.inr hp
    | eq =>
      have ht : t = t' := (lcterm_cmp_eq_iff t t').mp hcmp
      simp only [entryAddCoeff, hcmp] at hp
      rcases List.mem_cons.mp hp with hp | hp
      · subst hp
        exact Or.inl ht.symm
      · exact Or.inr (List.mem_cons_of_mem _ hp)
    | gt =>
      simp only [entryAddCoeff, hcmp] at hp
      rcases List.mem_cons.mp hp with hp | hp
      · subst hp
        exact Or.inr (List.mem_cons_self _ _)
      · rcases ih hp with h | h
        · exact Or.inl h
        · exact Or.inr (List.mem_cons_of_mem _ h)

theorem keys_entryAddCoeff {F : Type} [Field F] (t : LCTerm) (c : F)
    (l : List (LCTerm × F)) (k : LCTerm)
    (hk : k ∈ (entryAddCoeff t c l).map Prod.fst) :
    k = t ∨ k ∈ l.map Prod.fst := by
  obtain ⟨p, hpmem, hpk⟩ := List.mem_map.mp hk
  rcases mem_entryAddCoeff t c l p hpmem with h | h
  · exact Or.inl (hpk ▸ h)
  · exact Or.inr (hpk ▸ List.mem_map_of_mem Prod.fst h)

theorem entryAddCoeff_sorted {F : Type} [Field F] (t : LCTerm) (c : F)
    (l : List (LCTerm × F)) (h : (l.map Prod.fst).Pairwise LCTerm.lt) :
    ((entryAddCoeff t c l).map Prod.fst).Pairwise LCTerm.lt := by
  induction l with
  | nil => simp [entryAddCoeff]
  | cons q rest ih =>
    rcases q with ⟨t', c'⟩
    simp only [List.map_cons, List.pairwise_cons] at h
    cases hcmp : LCTerm.cmp t t' with
    | lt =>
      simp only [entryAddCoeff, hcmp, List.map_cons, List.pairwise_cons]
      refine ⟨?_, ?_, h.2⟩
      · intro k hk
        rcases List.mem_cons.mp hk with hk | hk
        · exact hk ▸ hcmp
        · exact lcterm_lt_trans t t' k hcmp (h.1 k hk)
      · exact h.1
    | eq =>
      simp only [entryAddCoeff, hcmp, List.map_cons, List.pairwise_cons]
      exact ⟨h.1, h.2⟩
    | gt =>
      simp only [entryAddCoeff, hcmp, List.map_cons, List.pairwise_cons]
      refine ⟨?_, ih h.2⟩
      intro k hk
      rcases keys_entryAddCoeff t c rest k hk with hk | hk
      · exact hk ▸ (lcterm_cmp_gt_iff t t').mp hcmp
      · exact h.1 k hk

theorem lcterm_sorted_keys_nodup {F : Type} (l : List (LCTerm × F))
    (h : (l.map Prod.fst).Pairwise LCTerm.lt) : (l.map Prod.fst).Nodup :=
  h.imp (fun hab => fun he => lcterm_lt_irrefl _ (he ▸ hab))

theorem lcLookup_of_mem_nodup {F : Type} (terms : List (LCTerm × F))
    (p : LCTerm × F) (hnod : (terms.map Prod.fst).Nodup) (hp : p ∈ terms) :
    lcLookup terms p.1 = some p.2 := by
  induction terms with
  | nil => simp at hp
  | cons q rest ih =>
    rcases q with ⟨t0, c0⟩
    simp only [List.map_cons, List.nodup_cons] at hnod
    rcases List.mem_cons.mp hp with hp | hp
    · subst hp
      simp [lcLookup, List.find?]
    · have hne : (t0 = p.1) = False := by
        simp only [eq_iff_iff, iff_false]
        intro he
        exact hnod.1 (he ▸ List.mem_map_of_mem Prod.fst hp)
      simp only [lcLookup, List.find?, decide_eq_true_eq] at ih ⊢
      rw [show (decide (t0 = p.1)) = false from by simp [hne]]
      exact ih hnod.2 hp

theorem mem_removeTerm {F : Type} (t : LCTerm) (l : List (LCTerm × F))
    (p : LCTerm × F) (hp : p ∈ removeTerm t l) : p ∈ l := by
  induction l with
  | nil => simp [removeTerm] at hp
  | cons q rest ih =>
    rcases q with ⟨t0, c0⟩
    by_cases h : t = t0
    · simp only [removeTerm, if_pos h] at hp
      exact List.mem_cons_of_mem _ hp
    · simp only [removeTerm, if_neg h] at hp
      rcases List.mem_cons.mp hp with hp | hp
      · exact hp ▸ List.mem_cons_self _ _
      · exact List.mem_cons_of_mem _ (ih hp)

theorem mem_removeTerm_key {F : Type} (t : LCTerm) (l : List (LCTerm × F))
    (p : LCTerm × F) (hnod : (l.map Prod.fst).Nodup)
    (hp : p ∈ removeTerm t l) : p.1 ≠ t := by
  induction l with
  | nil => simp [removeTerm] at hp
  | cons q rest ih =>
    rcases q with ⟨t0, c0⟩
    simp only [List.map_cons, List.nodup_cons] at hnod
    by_cases h : t = t0
    · subst h
      simp only [removeTerm, if_pos rfl] at hp
      intro he
      exact hnod.1 (he ▸ List.mem_map_of_mem Prod.fst hp)
    · simp only [removeTerm, if_neg h] at hp
      rcases List.mem_cons.mp hp with hp | hp
      · subst hp
        exact fun he => h he.symm
      · exact ih hnod.2 hp

theorem keys_removeTerm_sublist {F : Type} (t : LCTerm) (l : List (LCTerm × F)) :
    List.Sublist ((removeTerm t l).map Prod.fst) (l.map Prod.fst) := by
  induction l with
  | nil => simp [removeTerm]
  | cons q rest ih =>
    rcases q with ⟨t0, c0⟩
    by_cases h : t = t0
    · simp only [removeTerm, if_pos h, List.map_cons]
      exact (List.Sublist.refl _).cons t0
    · simp only [removeTerm, if_neg h, List.map_cons]
      exact ih.cons₂ t0

theorem lc_add_preserves {F : Type} [Field F] [DecidableEq F]
    (lc : LinearCombination F) (c : F) (t : LCTerm)
    (hs : lc.TermsSorted) (hz : lc.NoZeroCoeffs) :
    (lc.add c t).TermsSorted ∧ (lc.add c t).NoZeroCoeffs := by
  have hsorted' : ((entryAddCoeff t c lc.terms).map Prod.fst).Pairwise LCTerm.lt :=
    entryAddCoeff_sorted t c lc.terms hs
  have hnod' : ((entryAddCoeff t c lc.terms).map Prod.fst).Nodup :=
    lcterm_sorted_keys_nodup _ hsorted'
  cases hl : lcLookup (entryAddCoeff t c lc.terms) t with
  | none =>
    have hres : lc.add c t = ⟨lc.label, entryAddCoeff t c lc.terms⟩ := by
      simp [LinearCombination.add, hl]
    rw [hres]
    refine ⟨hsorted', ?_⟩
    intro p hp
    rcases mem_entryAddCoeff t c lc.terms p hp with hk | hk
    · exfalso
      have := lcLookup_of_mem_nodup _ p hnod' hp
      rw [hk, hl] at this
      exact Option.noConfusion this
    · exact hz p hk
  | some v =>
    by_cases hv : v = 0
    · have hres : lc.add c t = ⟨lc.label, removeTerm t (entryAddCoeff t c lc.terms)⟩ := by
        simp [LinearCombination.add, hl, hv]
      rw [hres]
      constructor
      · exact hsorted'.sublist (keys_removeTerm_sublist t _)
      · intro p hp
        have hp' := mem_removeTerm t _ p hp
        have hkey := mem_removeTerm_key t _ p hnod' hp
        rcases mem_entryAddCoeff t c lc.terms p hp' with hk | hk
        · exact absurd hk hkey
        · exact hz p hk
    · have hres : lc.add c t = ⟨lc.label, entryAddCoeff t c lc.terms⟩ := by
        simp [LinearCombination.add, hl, hv]
      rw [hres]
      refine ⟨hsorted', ?_⟩
      intro p hp
      rcases mem_entryAddCoeff t c lc.terms p hp with hk | hk
      · have := lcLookup_of_mem_nodup _ p hnod' hp
        rw [hk, hl] at this
        intro hzero
        exact hv ((Option.some.inj this).trans hzero)
      · exact hz p hk

theorem lc_foldl_add_preserves {F : Type} [Field F] [DecidableEq F]
    (cf : LCTerm × F → F) :
    ∀ (ts : List (LCTerm × F)) (lc : LinearCombination F),
      lc.TermsSorted → lc.NoZeroCoeffs →
      (ts.foldl (fun acc p => acc.add (cf p) p.1) lc).TermsSorted ∧
      (ts.foldl (fun acc p => acc.add (cf p) p.1) lc).NoZeroCoeffs := by
  intro ts
  induction ts with
  | nil => exact fun lc hs hz => ⟨hs, hz⟩
  | cons q rest ih =>
    intro lc hs hz
    obtain ⟨hs', hz'⟩ := lc_add_preserves lc (cf q) q.1 hs hz
    exact ih (lc.add (cf q) q.1) hs' hz'

/-- Claim C7 (amended): `empty`, `add`, and all the scaled and unscaled
`+=` / `-=` variants preserve the no-zero-coefficient invariant of the term
mapping (for a term map in its sorted `BTreeMap` representation), but —
contrary to the original claim — `new` and scalar multiplication do not
prune: `new` can materialize zero-coefficient entries when duplicate terms
sum to zero, and `*=` by the zero scalar leaves zeroed entries in place. -/
theorem linear_combination_zero_coeff_invariant {F : Type} [Field F]
    [DecidableEq F] (label : String) (lc other : LinearCombination F)
    (c coeff : F) (t : LCTerm)
    (hs : lc.TermsSorted) (hz : lc.NoZeroCoeffs) :
    (LinearCombination.empty (F := F) label).NoZeroCoeffs ∧
    ((lc.add c t).TermsSorted ∧ (lc.add c t).NoZeroCoeffs) ∧
    ((lc.addAssignScaled coeff other).TermsSorted ∧
      (lc.addAssignScaled coeff other).NoZeroCoeffs) ∧
    ((lc.subAssignScaled coeff other).TermsSorted ∧
      (lc.subAssignScaled coeff other).NoZeroCoeffs) ∧
    ((lc.addAssignLC other).TermsSorted ∧ (lc.addAssignLC other).NoZeroCoeffs) ∧
    ((lc.subAssignLC other).TermsSorted ∧ (lc.subAssignLC other).NoZeroCoeffs) ∧
    ((lc.addAssignConst c).TermsSorted ∧ (lc.addAssignConst c).NoZeroCoeffs) ∧
    ((lc.subAssignConst c).TermsSorted ∧ (lc.subAssignConst c).NoZeroCoeffs) := by
  refine ⟨?_, lc_add_preserves lc c t hs hz, ?_, ?_, ?_, ?_,
    lc_add_preserves lc c .One hs hz, lc_add_preserves lc (-c) .One hs hz⟩
  · intro p hp
    simp [LinearCombination.empty] at hp
  · exact lc_foldl_add_preserves (fun p => coeff * p.2) other.terms lc hs hz
  · exact lc_foldl_add_preserves (fun p => -coeff * p.2) other.terms lc hs hz
  · exact lc_foldl_add_preserves (fun p => p.2) other.terms lc hs hz
  · exact lc_foldl_add_preserves (fun p => -p.2) other.terms lc hs hz

/-- Counterexample to claim C7 as stated: `LinearCombination::new` merges
duplicate terms by summing but never prunes, so
`new("l", [(1, "x"), (-1, "x")])` retains the term `"x"` with coefficient
zero — a zero-coefficient entry persists after a listed operation. -/
theorem linear_combination_new_zero_persists :
    ¬ (LinearCombination.new "l"
        [((1 : ZMod 101), LCTerm.PolyLabel "x"),
          ((-1 : ZMod 101), LCTerm.PolyLabel "x")]).NoZeroCoeffs := by
  intro h
  exact h (LCTerm.PolyLabel "x", 0) (by decide) (by decide)

/-- Witness for C7 (amended) at a concrete input over `ZMod 101`. -/
theorem linear_combination_zero_coeff_invariant_witness :
    ((⟨"a", [(LCTerm.One, (2 : ZMod 101))]⟩ : LinearCombination (ZMod 101)).TermsSorted ∧
      (⟨"a", [(LCTerm.One, (2 : ZMod 101))]⟩ : LinearCombination (ZMod 101)).NoZeroCoeffs) ∧
    (((⟨"a", [(LCTerm.One, (2 : ZMod 101))]⟩ : LinearCombination (ZMod 101)).add 1
        (LCTerm.PolyLabel "x")).TermsSorted ∧
      ((⟨"a", [(LCTerm.One, (2 : ZMod 101))]⟩ : LinearCombination (ZMod 101)).add 1
        (LCTerm.PolyLabel "x")).NoZeroCoeffs) :=
  ⟨⟨by decide, by decide⟩,
    (linear_combination_zero_coeff_invariant "w"
      ⟨"a", [(LCTerm.One, (2 : ZMod 101))]⟩ ⟨"b", [(LCTerm.One, 1)]⟩ 1 1
      (LCTerm.PolyLabel "x") (by decide) (by decide)).2.1⟩

/-! ## Claims C3, C4, C9: degree-bound lookups -/

theorem bsAux_found (l : List (Nat × G2)) (d : Nat) :
    ∀ fuel lo hi i, bsAux l d fuel lo hi = some i →
      ∃ g, l[i]? = some (d, g) := by
  intro fuel
  induction fuel with
  | zero =>
    intro lo hi i h
    simp [bsAux] at h
  | succ fuel ih =>
    intro lo hi i h
    rw [bsAux] at h
    by_cases hlh : lo < hi
    · rw [if_pos hlh] at h
      cases hm : l[lo + (hi - lo) / 2]? with
      | none =>
        simp only [hm] at h
        exact Option.noConfusion h
      | some kv =>
        simp only [hm] at h
        by_cases h1 : kv.1 < d
        · rw [if_pos h1] at h
          exact ih _ _ i h
        · rw [if_neg h1] at h
          by_cases h2 : d < kv.1
          · rw [if_pos h2] at h
            exact ih _ _ i h
          · rw [if_neg h2] at h
            have hkey : kv.1 = d := Nat.le_antisymm (Nat.le_of_not_lt h2) (Nat.le_of_not_lt h1)
            have hi' : i = lo + (hi - lo) / 2 := (Option.some.inj h).symm
            subst hi'
            exact ⟨kv.2, by rw [hm, ← hkey]⟩
    · rw [if_neg hlh] at h
      exact Option.noConfusion h

theorem mem_of_getLast? (l : List Nat) (a : Nat) (h : l.getLast? = some a) :
    a ∈ l := by
  induction l with
  | nil => simp at h
  | cons x rest ih =>
    cases rest with
    | nil =>
      simp at h
      exact h ▸ List.mem_cons_self _ _
    | cons y t =>
      rw [List.getLast?_cons_cons] at h
      exact List.mem_cons_of_mem _ (ih h)

theorem pairwise_lt_mem_le_getLast (l : List Nat) (hp : l.Pairwise (· < ·))
    (x : Nat) (hx : x ∈ l) (mb : Nat) (hmb : l.getLast? = some mb) : x ≤ mb := by
  induction l with
  | nil => simp at hx
  | cons a rest ih =>
    rcases List.pairwise_cons.mp hp with ⟨ha, hp'⟩
    cases rest with
    | nil =>
      simp at hmb hx
      omega
    | cons y t =>
      rw [List.getLast?_cons_cons] at hmb
      rcases List.mem_cons.mp hx with hx | hx
      · subst hx
        have hmem : mb ∈ y :: t := mem_of_getLast? _ _ hmb
        exact Nat.le_of_lt (ha mb hmem)
      · exact ih hp' hx hmb

/-- Claim C3 (amended): `shifted_powers_of_beta_g` returns the absent value
`None` exactly when no degree-bound support was configured (either shifted
field is `None`); but when support IS configured, a requested bound missing
from `enforced_degree_bounds` aborts via the `assert!` (modelled as the
assertion error), it does not return `None`.  `VerifierKey::get_shift_power`
does return `None` for any bound not present in its pair list. -/
theorem unsupported_degree_bound_behavior :
    (∀ (ck : CommitterKey) (d : Option Nat),
      (ck.shifted_powers_of_beta_g = none ∨
        ck.shifted_powers_of_beta_times_gamma_g = none) →
      ck.shifted_powers_of_beta_g' d = .ok none) ∧
    (∀ (ck : CommitterKey) (sp : List G) (spg : List (Nat × List G))
        (eb : List Nat) (mb d : Nat),
      ck.shifted_powers_of_beta_g = some sp →
      ck.shifted_powers_of_beta_times_gamma_g = some spg →
      ck.enforced_degree_bounds = some eb →
      eb.getLast? = some mb →
      d ∉ eb →
      ck.shifted_powers_of_beta_g' (some d) = .error "assertion failed") ∧
    (∀ (vk : VerifierKey) (d : Nat),
      (∀ pr, vk.degree_bounds_and_neg_powers_of_h = some pr →
        ∀ kv ∈ pr, kv.1 ≠ d) →
      vk.get_shift_power d = none) := by
  refine ⟨?_, ?_, ?_⟩
  · intro ck d h
    rcases h with h | h
    · cases h2 : ck.shifted_powers_of_beta_times_gamma_g <;>
        simp [CommitterKey.shifted_powers_of_beta_g', h, h2]
    · cases h2 : ck.shifted_powers_of_beta_g <;>
        simp [CommitterKey.shifted_powers_of_beta_g', h, h2]
  · intro ck sp spg eb mb d hsh hshg heb hlast hd
    simp [CommitterKey.shifted_powers_of_beta_g', hsh, hshg, heb, hlast, hd]
  · intro vk d hmiss
    rw [VerifierKey.get_shift_power]
    cases hf : vk.degree_bounds_and_neg_powers_of_h with
    | none => rfl
    | some pr =>
      cases hbs : binarySearchKey pr d with
      | none => simp [hbs]
      | some i =>
        exfalso
        obtain ⟨g, hg⟩ := bsAux_found pr d pr.length 0 pr.length i hbs
        have hmem : (d, g) ∈ pr := by
          have hlt : i < pr.length := (List.getElem?_eq_some.mp hg).1
          have := List.getElem_mem (l := pr) (n := i) hlt
          rwa [(List.getElem?_eq_some.mp hg).2] at this
        exact hmiss pr hf (d, g) hmem rfl

/-- Counterexample to claim C3 as stated: with degree-bound support
configured and enforced bounds `[2]`, requesting the unsupported bound 1
hits the `assert!` (an abort), instead of returning the absent value. -/
theorem unsupported_degree_bound_asserts_cex :
    CommitterKey.shifted_powers_of_beta_g' ckBound2 (some 1) =
      Except.error "assertion failed" ∧
    CommitterKey.shifted_powers_of_beta_g' ckBound2 (some 1) ≠
      Except.ok none := by
  constructor
  · rfl
  · intro h
    exact Except.noConfusion (h.symm.trans rfl)

/-- Witness for C3 (amended): a key without degree-bound support yields
`ok none`, and the verifier key with bounds 2 and 5 yields `none` at the
absent bound 3. -/
theorem unsupported_degree_bound_behavior_witness :
    (ckNoSupport.shifted_powers_of_beta_g = none ∨
      ckNoSupport.shifted_powers_of_beta_times_gamma_g = none) ∧
    CommitterKey.shifted_powers_of_beta_g' ckNoSupport (some 3) = .ok none ∧
    vkTwoBounds.get_shift_power 3 = none :=
  ⟨Or.inl rfl,
    (unsupported_degree_bound_behavior).1 ckNoSupport (some 3) (Or.inl rfl),
    (unsupported_degree_bound_behavior).2.2 vkTwoBounds 3
      (by
        intro pr hpr kv hkv
        have hpr' : pr = [(2, 20), (5, 50)] := Option.some.inj (hpr.symm.trans rfl)
        subst hpr'
        simp only [List.mem_cons, List.not_mem_nil, or_false] at hkv
        rcases hkv with rfl | rfl <;> decide)⟩

/-- Claim C4 (amended): for an enforced bound `d` of a key whose shifted
basis has length `max_bound + 1`, `shifted_powers_of_beta_g(d)` returns the
window starting at offset `max_bound - d` — so its first element is the
shifted array's element at index `max_bound - d` and it is paired with the
hiding entry keyed by exactly `d` — and the window's length is `d + 1`
(not `max_bound - d + 1` as originally claimed). -/
theorem shifted_powers_window (ck : CommitterKey) (sp : List G)
    (spg : List (Nat × List G)) (eb : List Nat) (mb d : Nat) (v : List G)
    (hsh : ck.shifted_powers_of_beta_g = some sp)
    (hshg : ck.shifted_powers_of_beta_times_gamma_g = some spg)
    (heb : ck.enforced_degree_bounds = some eb)
    (hsorted : eb.Pairwise (· < ·))
    (hlast : eb.getLast? = some mb)
    (hlen : sp.length = mb + 1)
    (hd : d ∈ eb)
    (hv : btreeFind spg d = some v) :
    ck.shifted_powers_of_beta_g' (some d) =
      .ok (some ⟨sp.drop (mb - d), v⟩) ∧
    (sp.drop (mb - d)).length = d + 1 ∧
    (sp.drop (mb - d)).head? = sp[mb - d]? := by
  have hdle : d ≤ mb := pairwise_lt_mem_le_getLast eb hsorted d hd mb hlast
  have hslice : sliceFrom sp (mb - d) = .ok (sp.drop (mb - d)) := by
    rw [sliceFrom, if_pos (by omega)]
  refine ⟨?_, ?_, List.head?_drop sp (mb - d)⟩
  · simp [CommitterKey.shifted_powers_of_beta_g', hsh, hshg, heb, hlast, hd,
      hslice, hv]
  · rw [List.length_drop, hlen]
    omega

/-- Counterexample to claim C4 as stated: with enforced bounds `{1 < 3}`
and a shifted array of length 4, the window returned for the bound 1 has
length 2 (`= d + 1`), not `max_bound − d + 1 = 3`. -/
theorem shifted_powers_window_length_cex :
    CommitterKey.shifted_powers_of_beta_g' ckWindow (some 1) =
      Except.ok (some ⟨[0, 0], [1]⟩) ∧
    ([(0 : G), 0].length = 3 - 1 + 1) = False := by
  constructor
  · rfl
  · simp

/-- Witness for C4 (amended) at `ckWindow` with bound 1. -/
theorem shifted_powers_window_witness :
    ((ckWindow.enforced_degree_bounds = some [1, 3]) ∧ (1 : Nat) ∈ [1, 3]) ∧
    (CommitterKey.shifted_powers_of_beta_g' ckWindow (some 1) =
        .ok (some ⟨(ckWindow.shifted_powers_of_beta_g.getD []).drop (3 - 1), [1]⟩) ∧
      ((ckWindow.shifted_powers_of_beta_g.getD []).drop (3 - 1)).length = 1 + 1 ∧
      ((ckWindow.shifted_powers_of_beta_g.getD []).drop (3 - 1)).head? =
        (ckWindow.shifted_powers_of_beta_g.getD [])[3 - 1]?) :=
  ⟨⟨rfl, by decide⟩,
    shifted_powers_window ckWindow [0, 0, 0, 0] [(1, [1]), (3, [2])] [1, 3] 3 1 [1]
      rfl rfl rfl (by decide) (by decide) (by decide) (by decide) (by decide)⟩

/-- Claim C9: panic-freedom of `shifted_powers_of_beta_g` needs more than
the documented interface: (a) with both shifted fields present, a missing or
empty `enforced_degree_bounds` hits the double `unwrap`; (b) with bounds
present, a selected bound (the requested one, or the largest enforced bound)
absent from the `shifted_powers_of_beta_times_gamma_g` map keys panics at
the slice or the direct map index; (c) under the data-model invariant —
shifted fields present together, non-empty ascending enforced bounds whose
every bound has a map entry, and a shifted array of length `max_bound + 1` —
no unwrap, slice or index can fail: the call returns a value, or hits only
the explicit `assert!` on a non-enforced requested bound. -/
theorem shifted_powers_panic_conditions :
    (∀ (ck : CommitterKey) (d : Option Nat) (sp : List G)
        (spg : List (Nat × List G)),
      ck.shifted_powers_of_beta_g = some sp →
      ck.shifted_powers_of_beta_times_gamma_g = some spg →
      (ck.enforced_degree_bounds = none ∨ ck.enforced_degree_bounds = some []) →
      ck.shifted_powers_of_beta_g' d = .error "called unwrap on a None value") ∧
    (∀ (ck : CommitterKey) (d : Option Nat) (sp : List G)
        (spg : List (Nat × List G)) (eb : List Nat) (mb : Nat),
      ck.shifted_powers_of_beta_g = some sp →
      ck.shifted_powers_of_beta_times_gamma_g = some spg →
      ck.enforced_degree_bounds = some eb →
      eb.getLast? = some mb →
      (match d with | some x => x ∈ eb | none => True) →
      btreeFind spg (match d with | some x => x | none => mb) = none →
      ∃ e, ck.shifted_powers_of_beta_g' d = .error e) ∧
    (∀ (ck : CommitterKey) (d : Option Nat) (sp : List G)
        (spg : List (Nat × List G)) (eb : List Nat) (mb : Nat),
      ck.shifted_powers_of_beta_g = some sp →
      ck.shifted_powers_of_beta_times_gamma_g = some spg →
      ck.enforced_degree_bounds = some eb →
      eb.Pairwise (· < ·) →
      eb.getLast? = some mb →
      sp.length = mb + 1 →
      (∀ b ∈ eb, (btreeFind spg b).isSome) →
      (ck.shifted_powers_of_beta_g' d = .error "assertion failed" ∨
        ∃ p, ck.shifted_powers_of_beta_g' d = .ok (some p))) := by
  refine ⟨?_, ?_, ?_⟩
  · intro ck d sp spg hsh hshg heb
    rcases heb with heb | heb <;>
      simp [CommitterKey.shifted_powers_of_beta_g', hsh, hshg, heb]
  · intro ck d sp spg eb mb hsh hshg heb hlast hsel hfind
    cases d with
    | none =>
      have hfind' : btreeFind spg mb = none := hfind
      cases hslice : sliceFrom sp 0 with
      | error e =>
        exact ⟨e, by simp [CommitterKey.shifted_powers_of_beta_g', hsh, hshg,
          heb, hlast, hslice]⟩
      | ok window =>
        exact ⟨"key not found", by simp [CommitterKey.shifted_powers_of_beta_g',
          hsh, hshg, heb, hlast, hslice, hfind']⟩
    | some x =>
      have hsel' : x ∈ eb := hsel
      have hfind' : btreeFind spg x = none := hfind
      cases hslice : sliceFrom sp (mb - x) with
      | error e =>
        exact ⟨e, by simp [CommitterKey.shifted_powers_of_beta_g', hsh, hshg,
          heb, hlast, hsel', hslice]⟩
      | ok window =>
        exact ⟨"key not found", by simp [CommitterKey.shifted_powers_of_beta_g',
          hsh, hshg, heb, hlast, hsel', hslice, hfind']⟩
  · intro ck d sp spg eb mb hsh hshg heb hsorted hlast hlen hall
    have hmb : mb ∈ eb := mem_of_getLast? eb mb hlast
    cases d with
    | none =>
      obtain ⟨v, hv⟩ := Option.isSome_iff_exists.mp (hall mb hmb)
      have hslice : sliceFrom sp 0 = .ok (sp.drop 0) := by
        rw [sliceFrom, if_pos (Nat.zero_le _)]
      exact Or.inr ⟨⟨sp.drop 0, v⟩, by
        simp [CommitterKey.shifted_powers_of_beta_g', hsh, hshg, heb, hlast,
          hslice, hv]⟩
    | some x =>
      by_cases hx : x ∈ eb
      · obtain ⟨v, hv⟩ := Option.isSome_iff_exists.mp (hall x hx)
        have hxle : x ≤ mb := pairwise_lt_mem_le_getLast eb hsorted x hx mb hlast
        have hslice : sliceFrom sp (mb - x) = .ok (sp.drop (mb - x)) := by
          rw [sliceFrom, if_pos (by omega)]
        exact Or.inr ⟨⟨sp.drop (mb - x), v⟩, by
          simp [CommitterKey.shifted_powers_of_beta_g', hsh, hshg, heb, hlast,
            hx, hslice, hv]⟩
      · exact Or.inl (by
          simp [CommitterKey.shifted_powers_of_beta_g', hsh, hshg, heb, hlast, hx])

/-- Witness for C9, part (c), at `ckWindow` with the in-range bound 3. -/
theorem shifted_powers_panic_conditions_witness :
    (ckWindow.enforced_degree_bounds = some [1, 3] ∧
      (ckWindow.shifted_powers_of_beta_g.getD []).length = 3 + 1) ∧
    (CommitterKey.shifted_powers_of_beta_g' ckWindow (some 3) =
        .error "assertion failed" ∨
      ∃ p, CommitterKey.shifted_powers_of_beta_g' ckWindow (some 3) =
        .ok (some p)) :=
  ⟨⟨rfl, by decide⟩,
    (shifted_powers_panic_conditions).2.2 ckWindow (some 3) [0, 0, 0, 0]
      [(1, [1]), (3, [2])] [1, 3] 3 rfl rfl rfl (by decide) (by decide)
      (by decide) (by decide)⟩

/-! ## Claims C1 and C10: wire-format round trip -/

theorem length_writeU32 (n : Nat) : (writeU32 n).length = 4 := rfl

theorem length_encG (g : G) : (encG g).length = 4 := rfl

theorem encGs_nil : encGs [] = [] := rfl

theorem encGs_cons (g : G) (l : List G) : encGs (g :: l) = encG g ++ encGs l := by
  simp [encGs]

theorem encGs_append (a b : List G) : encGs (a ++ b) = encGs a ++ encGs b := by
  simp [encGs]

theorem length_encGs (l : List G) : (encGs l).length = 4 * l.length := by
  induction l with
  | nil => rfl
  | cons g t ih =>
    rw [encGs_cons, List.length_append, length_encG, ih, List.length_cons]
    omega

theorem length_sha256 (l : List Nat) : (sha256 l).length = 32 := by
  simp [sha256, writeU32]

theorem readU32_writeU32 (n : Nat) (rest : List Nat) (h : n < 4294967296) :
    readU32 (writeU32 n ++ rest) = .ok (n, rest) := by
  show Except.ok (dec4 (n % 256) (n / 256 % 256) (n / 65536 % 256) (n / 16777216 % 256), rest)
    = Except.ok (n, rest)
  have : dec4 (n % 256) (n / 256 % 256) (n / 65536 % 256) (n / 16777216 % 256) = n := by
    rw [dec4]
    omega
  rw [this]

theorem readBool_writeBool (b : Bool) (rest : List Nat) :
    readBool (writeBool b ++ rest) = .ok (b, rest) := by
  cases b <;> rfl

theorem readG_encG (g : G) (rest : List Nat) :
    readG (encG g ++ rest) = .ok (g, rest) := by
  rw [readG, encG, readU32_writeU32 g.val rest g.isLt]
  have hg : (⟨g.val % 4294967296, Nat.mod_lt _ (by norm_num)⟩ : G) = g := by
    apply Fin.ext
    simp [Nat.mod_eq_of_lt g.isLt]
  show Except.ok ((⟨g.val % 4294967296, Nat.mod_lt _ (by norm_num)⟩ : G), rest)
    = Except.ok (g, rest)
  rw [hg]

theorem readGs_encGs (l : List G) (rest : List Nat) :
    readGs l.length (encGs l ++ rest) = .ok (l, rest) := by
  induction l with
  | nil => rfl
  | cons g t ih =>
    rw [List.length_cons, encGs_cons, List.append_assoc]
    show (readG (encG g ++ (encGs t ++ rest)) >>= fun x =>
      match x with
      | (g, bs) => readGs t.length bs >>= fun x =>
        match x with
        | (gs, bs) => Except.ok (g :: gs, bs)) = Except.ok (g :: t, rest)
    rw [readG_encG, except_bind_ok]
    show (readGs t.length (encGs t ++ rest) >>= fun x =>
      match x with
      | (gs, bs) => Except.ok (g :: gs, bs)) = Except.ok (g :: t, rest)
    rw [ih, except_bind_ok]

theorem readBytes_exact (l rest : List Nat) :
    readBytes l.length (l ++ rest) = .ok (l, rest) := by
  induction l with
  | nil => rfl
  | cons b t ih =>
    show (readBytes t.length (t ++ rest) >>= fun x =>
      match x with
      | (tl, r) => Except.ok (b :: tl, r)) = Except.ok (b :: t, rest)
    rw [ih, except_bind_ok]

theorem readU32s_writes (l : List Nat) (rest : List Nat)
    (h : ∀ x ∈ l, x < 4294967296) :
    readU32s l.length ((l.map writeU32).flatten ++ rest) = .ok (l, rest) := by
  induction l with
  | nil => rfl
  | cons v t ih =>
    rw [List.length_cons, List.map_cons, List.flatten_cons, List.append_assoc]
    show (readU32 (writeU32 v ++ ((t.map writeU32).flatten ++ rest)) >>= fun x =>
      match x with
      | (v, bs) => readU32s t.length bs >>= fun x =>
        match x with
        | (vs, bs) => Except.ok (v :: vs, bs)) = Except.ok (v :: t, rest)
    rw [readU32_writeU32 v _ (h v (List.mem_cons_self v t)), except_bind_ok]
    show (readU32s t.length ((t.map writeU32).flatten ++ rest) >>= fun x =>
      match x with
      | (vs, bs) => Except.ok (v :: vs, bs)) = Except.ok (v :: t, rest)
    rw [ih (fun x hx => h x (List.mem_cons_of_mem v hx)), except_bind_ok]

theorem btreeInsert_append (k : Nat) (v : List G) (acc : List (Nat × List G))
    (h : ∀ kv ∈ acc, kv.1 < k) : btreeInsert k v acc = acc ++ [(k, v)] := by
  induction acc with
  | nil => rfl
  | cons q rest ih =>
    rcases q with ⟨k', v'⟩
    have hk' : k' < k := h (k', v') (List.mem_cons_self _ _)
    rw [btreeInsert, if_neg (by omega), if_neg (by omega),
      ih (fun kv hkv => h kv (List.mem_cons_of_mem _ hkv))]
    simp

theorem readLagrEntries_writes :
    ∀ (m acc : List (Nat × List G)) (rest : List Nat),
      (∀ kv ∈ m, kv.2.length = kv.1 ∧ kv.1 < 4294967296) →
      (((acc ++ m).map Prod.fst).Pairwise (· < ·)) →
      readLagrEntries m.length ((m.map lagrEntryBytes).flatten ++ rest) acc =
        .ok (acc ++ m, rest) := by
  intro m
  induction m with
  | nil =>
    intro acc rest _ _
    simp [readLagrEntries]
  | cons kv m' ih =>
    intro acc rest hent hsort
    rcases kv with ⟨k, v⟩
    obtain ⟨hvlen, hklt⟩ := hent (k, v) (List.mem_cons_self _ _)
    rw [List.length_cons, List.map_cons, List.flatten_cons, List.append_assoc,
      lagrEntryBytes, List.append_assoc]
    show (readU32 (writeU32 k ++ (encGs v ++ ((m'.map lagrEntryBytes).flatten ++ rest)))
        >>= fun x =>
      match x with
      | (size, bs) => readGs size bs >>= fun x =>
        match x with
        | (basis, bs) => readLagrEntries m'.length bs (btreeInsert size basis acc))
      = Except.ok (acc ++ (k, v) :: m', rest)
    rw [readU32_writeU32 k _ hklt, except_bind_ok]
    show (readGs k (encGs v ++ ((m'.map lagrEntryBytes).flatten ++ rest)) >>= fun x =>
      match x with
      | (basis, bs) => readLagrEntries m'.length bs (btreeInsert k basis acc))
      = Except.ok (acc ++ (k, v) :: m', rest)
    have hvlen' : v.length = k := hvlen
    have hrg : readGs k (encGs v ++ ((m'.map lagrEntryBytes).flatten ++ rest)) =
        .ok (v, (m'.map lagrEntryBytes).flatten ++ rest) := by
      rw [← hvlen']
      exact readGs_encGs v _
    rw [hrg, except_bind_ok]
    show readLagrEntries m'.length ((m'.map lagrEntryBytes).flatten ++ rest)
      (btreeInsert k v acc) = Except.ok (acc ++ (k, v) :: m', rest)
    have hh : ∀ kv ∈ acc, kv.1 < k := by
      intro kv hkv
      have hsp := (List.pairwise_append.mp (by rwa [List.map_append] at hsort)).2.2
      exact hsp kv.1 (List.mem_map_of_mem Prod.fst hkv) k (by simp)
    rw [btreeInsert_append k v acc hh]
    have hres := ih (acc ++ [(k, v)]) rest
      (fun kv hkv => hent kv (List.mem_cons_of_mem _ hkv))
      (by simpa using hsort)
    simpa using hres

theorem readSGEntries_writes :
    ∀ (m acc : List (Nat × List G)) (rest : List Nat),
      (∀ kv ∈ m, kv.1 < 4294967296 ∧ kv.2.length < 4294967296) →
      (((acc ++ m).map Prod.fst).Pairwise (· < ·)) →
      readSGEntries m.length ((m.map sgEntryBytes).flatten ++ rest) acc =
        .ok (acc ++ m, rest) := by
  intro m
  induction m with
  | nil =>
    intro acc rest _ _
    simp [readSGEntries]
  | cons kv m' ih =>
    intro acc rest hent hsort
    rcases kv with ⟨k, v⟩
    obtain ⟨hklt, hvlen⟩ := hent (k, v) (List.mem_cons_self _ _)
    rw [List.length_cons, List.map_cons, List.flatten_cons, List.append_assoc,
      sgEntryBytes, List.append_assoc, List.append_assoc]
    show (readU32 (writeU32 k ++ (writeU32 v.length ++ (encGs v ++
        ((m'.map sgEntryBytes).flatten ++ rest)))) >>= fun x =>
      match x with
      | (key, bs) => readU32 bs >>= fun x =>
        match x with
        | (vlen, bs) => readGs vlen bs >>= fun x =>
          match x with
          | (vals, bs) => readSGEntries m'.length bs (btreeInsert key vals acc))
      = Except.ok (acc ++ (k, v) :: m', rest)
    rw [readU32_writeU32 k _ hklt, except_bind_ok]
    show (readU32 (writeU32 v.length ++ (encGs v ++
        ((m'.map sgEntryBytes).flatten ++ rest))) >>= fun x =>
      match x with
      | (vlen, bs) => readGs vlen bs >>= fun x =>
        match x with
        | (vals, bs) => readSGEntries m'.length bs (btreeInsert k vals acc))
      = Except.ok (acc ++ (k, v) :: m', rest)
    rw [readU32_writeU32 v.length _ hvlen, except_bind_ok]
    show (readGs v.length (encGs v ++ ((m'.map sgEntryBytes).flatten ++ rest))
        >>= fun x =>
      match x with
      | (vals, bs) => readSGEntries m'.length bs (btreeInsert k vals acc))
      = Except.ok (acc ++ (k, v) :: m', rest)
    rw [readGs_encGs, except_bind_ok]
    show readSGEntries m'.length ((m'.map sgEntryBytes).flatten ++ rest)
      (btreeInsert k v acc) = Except.ok (acc ++ (k, v) :: m', rest)
    have hh : ∀ kv ∈ acc, kv.1 < k := by
      intro kv hkv
      have hsp := (List.pairwise_append.mp (by rwa [List.map_append] at hsort)).2.2
      exact hsp kv.1 (List.mem_map_of_mem Prod.fst hkv) k (by simp)
    rw [btreeInsert_append k v acc hh]
    have hres := ih (acc ++ [(k, v)]) rest
      (fun kv hkv => hent kv (List.mem_cons_of_mem _ hkv))
      (by simpa using hsort)
    simpa using hres

theorem readVec_writeVec (l : List G) (rest : List Nat) (h : l.length < 4294967296) :
    readVec (writeVec l ++ rest) = .ok (l, rest) := by
  rw [writeVec, List.append_assoc]
  show (readU32 (writeU32 l.length ++ (encGs l ++ rest)) >>= fun x =>
    match x with
    | (n, bs) => readGs n bs) = Except.ok (l, rest)
  rw [readU32_writeU32 l.length _ h, except_bind_ok]
  exact readGs_encGs l rest

theorem readOptVec_writeOptVec (o : Option (List G)) (rest : List Nat)
    (h : OptHolds o (fun l => l.length < 4294967296)) :
    readOptVec (writeOptVec o ++ rest) = .ok (o, rest) := by
  cases o with
  | none => rfl
  | some l =>
    rw [writeOptVec]
    show readOptVec (([1] ++ (writeU32 l.length ++ encGs l)) ++ rest) = .ok (some l, rest)
    rw [List.append_assoc, List.append_assoc]
    show (readBool ((1 : Nat) :: (writeU32 l.length ++ (encGs l ++ rest)))).bind
        (fun x => match x with
          | (flag, bs) =>
            if flag then
              (readU32 bs).bind (fun x => match x with
                | (n, bs) => (readGs n bs).bind (fun x => match x with
                  | (l, bs) => Except.ok (some l, bs)))
            else Except.ok (none, bs)) = Except.ok (some l, rest)
    rw [show readBool ((1 : Nat) :: (writeU32 l.length ++ (encGs l ++ rest))) =
      .ok (true, writeU32 l.length ++ (encGs l ++ rest)) from rfl]
    show (readU32 (writeU32 l.length ++ (encGs l ++ rest))).bind
        (fun x => match x with
          | (n, bs) => (readGs n bs).bind (fun x => match x with
            | (l, bs) => Except.ok (some l, bs))) = Except.ok (some l, rest)
    rw [readU32_writeU32 l.length _ h]
    show (readGs l.length (encGs l ++ rest)).bind (fun x => match x with
      | (l, bs) => Except.ok (some l, bs)) = Except.ok (some l, rest)
    rw [readGs_encGs l rest]
    rfl

theorem readOptSG_writeOptSG (o : Option (List (Nat × List G))) (rest : List Nat)
    (h : OptHolds o (fun m => m.length < 4294967296 ∧
      (m.map Prod.fst).Pairwise (· < ·) ∧
      ∀ kv ∈ m, kv.1 < 4294967296 ∧ kv.2.length < 4294967296)) :
    readOptSG (writeOptSG o ++ rest) = .ok (o, rest) := by
  cases o with
  | none => rfl
  | some m =>
    obtain ⟨hlen, hsort, hent⟩ := h
    rw [writeOptSG]
    show readOptSG (([1] ++ (writeU32 m.length ++ (m.map sgEntryBytes).flatten)) ++ rest)
      = .ok (some m, rest)
    rw [List.append_assoc, List.append_assoc]
    show (readU32 (writeU32 m.length ++ ((m.map sgEntryBytes).flatten ++ rest))).bind
        (fun x => match x with
          | (n, bs) => (readSGEntries n bs []).bind (fun x => match x with
            | (m, bs) => Except.ok (some m, bs))) = Except.ok (some m, rest)
    rw [readU32_writeU32 m.length _ hlen]
    show (readSGEntries m.length ((m.map sgEntryBytes).flatten ++ rest) []).bind
        (fun x => match x with
          | (m, bs) => Except.ok (some m, bs)) = Except.ok (some m, rest)
    rw [readSGEntries_writes m [] rest hent (by simpa using hsort)]
    rfl

theorem readOptEb_writeOptEb (o : Option (List Nat)) (rest : List Nat)
    (h : OptHolds o (fun l => l.length < 4294967296 ∧ ∀ b ∈ l, b < 4294967296)) :
    readOptEb (writeOptEb o ++ rest) = .ok (o, rest) := by
  cases o with
  | none => rfl
  | some l =>
    obtain ⟨hlen, hb⟩ := h
    rw [writeOptEb]
    show readOptEb (([1] ++ (writeU32 l.length ++ (l.map writeU32).flatten)) ++ rest)
      = .ok (some l, rest)
    rw [List.append_assoc, List.append_assoc]
    show (readU32 (writeU32 l.length ++ ((l.map writeU32).flatten ++ rest))).bind
        (fun x => match x with
          | (n, bs) => (readU32s n bs).bind (fun x => match x with
            | (l, bs) => Except.ok (some l, bs))) = Except.ok (some l, rest)
    rw [readU32_writeU32 l.length _ hlen]
    show (readU32s l.length ((l.map writeU32).flatten ++ rest)).bind
        (fun x => match x with
          | (l, bs) => Except.ok (some l, bs)) = Except.ok (some l, rest)
    rw [readU32s_writes l rest hb]
    rfl

theorem except_bind_ok_pair {α β γ : Type} (a : α) (b : β)
    (f : α × β → Except String γ) :
    ((Except.ok (a, b) : Except String (α × β)) >>= f) = f (a, b) := rfl

/-- Parsing any serialized body followed by a stored 32-byte digest: the
parse reconstructs the key, and succeeds exactly when the stored digest
matches the digest recomputed from the decoded group elements. -/
theorem read_le_writeBody (ck : CommitterKey) (hwf : ck.WellFormed)
    (d : List Nat) (hd : d.length = 32) (rest : List Nat) :
    CommitterKey.read_le (ck.writeBody ++ (d ++ rest)) =
      if d = sha256 (hashInput ck) then .ok (ck, rest)
      else .error "Mismatching group elements" := by
  obtain ⟨h1, h2, h3, h4, h5, h6, h7, h8, h9⟩ := hwf
  have e1 : ∀ r, readVec (writeVec ck.powers_of_beta_g ++ r) =
      .ok (ck.powers_of_beta_g, r) := fun r => readVec_writeVec _ r h1
  have e2 : ∀ r, readU32 (writeU32 ck.lagrange_bases_at_beta_g.length ++ r) =
      .ok (ck.lagrange_bases_at_beta_g.length, r) :=
    fun r => readU32_writeU32 _ r h2
  have e3 : ∀ r, readLagrEntries ck.lagrange_bases_at_beta_g.length
      ((ck.lagrange_bases_at_beta_g.map lagrEntryBytes).flatten ++ r) [] =
      .ok (ck.lagrange_bases_at_beta_g, r) := by
    intro r
    have := readLagrEntries_writes ck.lagrange_bases_at_beta_g [] r h4
      (by simpa using h3)
    simpa using this
  have e4 : ∀ r, readVec (writeVec ck.powers_of_beta_times_gamma_g ++ r) =
      .ok (ck.powers_of_beta_times_gamma_g, r) := fun r => readVec_writeVec _ r h5
  have e5 : ∀ r, readOptVec (writeOptVec ck.shifted_powers_of_beta_g ++ r) =
      .ok (ck.shifted_powers_of_beta_g, r) :=
    fun r => readOptVec_writeOptVec _ r h6
  have e6 : ∀ r, readOptSG (writeOptSG ck.shifted_powers_of_beta_times_gamma_g ++ r) =
      .ok (ck.shifted_powers_of_beta_times_gamma_g, r) :=
    fun r => readOptSG_writeOptSG _ r h7
  have e7 : ∀ r, readOptEb (writeOptEb ck.enforced_degree_bounds ++ r) =
      .ok (ck.enforced_degree_bounds, r) :=
    fun r => readOptEb_writeOptEb _ r h8
  have e8 : ∀ r, readU32 (writeU32 ck.max_degree ++ r) =
      .ok (ck.max_degree, r) := fun r => readU32_writeU32 _ r h9
  have e9 : readBytes 32 (d ++ rest) = .ok (d, rest) := by
    rw [← hd]
    exact readBytes_exact d rest
  simp only [CommitterKey.read_le, CommitterKey.writeBody, writeLagr,
    List.append_assoc, e1, e2, e3, e4, e5, e6, e7, e8, e9,
    except_bind_ok_pair, except_bind_ok]

theorem read_write_roundtrip (ck : CommitterKey) (hwf : ck.WellFormed)
    (rest : List Nat) :
    CommitterKey.read_le (ck.write_le ++ rest) = .ok (ck, rest) := by
  rw [CommitterKey.write_le, List.append_assoc,
    read_le_writeBody ck hwf _ (length_sha256 _) rest, if_pos rfl]

/-- Claim C1 (amended): deserializing the output of serializing a
`CommitterKey` yields a key equal to the original field-for-field — and the
digest recomputed during deserialization matches the stored digest, since a
successful parse requires exactly that — provided the key is well-formed for
the wire format: every Lagrange entry stores exactly as many elements as its
map key claims, every count and value written through an `as u32` cast fits
in 32 bits, and the `BTreeMap` representations are key-sorted. -/
theorem committer_key_roundtrip (ck : CommitterKey) (hwf : ck.WellFormed) :
    CommitterKey.read_le ck.write_le = .ok (ck, []) := by
  have h := read_write_roundtrip ck hwf []
  rwa [List.append_nil] at h

/-- Counterexample to claim C1 as stated: the key whose Lagrange entry has
map key 1 but an empty basis serializes, but deserialization misreads the
stream (the key doubles as the element count on decode) and fails, so
`decode(encode(key))` is not the original key. -/
theorem committer_key_roundtrip_cex :
    CommitterKey.read_le ckLagrMismatch.write_le =
      .error "unexpected end of input" ∧
    CommitterKey.read_le ckLagrMismatch.write_le ≠
      .ok (ckLagrMismatch, []) := by
  constructor
  · decide
  · decide

/-- Witness for C1 (amended) at the fully populated key `ckFull`. -/
theorem committer_key_roundtrip_witness :
    ckFull.WellFormed ∧
    CommitterKey.read_le ckFull.write_le = .ok (ckFull, []) :=
  ⟨by decide, committer_key_roundtrip ckFull (by decide)⟩

/-- Claim C10: the round trip holds for every key satisfying the two
unadvertised interface preconditions — each Lagrange entry's basis length
equals its map key (the wire format reuses the key as the count), and every
serialized count and value fits in 32 bits (each is written through an
`as u32` cast) — together with the `BTreeMap` representation invariant that
map keys are strictly sorted. -/
theorem committer_key_u32_lagrange_preconditions (ck : CommitterKey)
    (rest : List Nat)
    (hlagr : ∀ kv ∈ ck.lagrange_bases_at_beta_g, kv.2.length = kv.1)
    (hp : ck.powers_of_beta_g.length < 4294967296)
    (hl : ck.lagrange_bases_at_beta_g.length < 4294967296)
    (hlk : ∀ kv ∈ ck.lagrange_bases_at_beta_g, kv.1 < 4294967296)
    (hg : ck.powers_of_beta_times_gamma_g.length < 4294967296)
    (hs : ∀ sp, ck.shifted_powers_of_beta_g = some sp → sp.length < 4294967296)
    (hm : ∀ m, ck.shifted_powers_of_beta_times_gamma_g = some m →
      m.length < 4294967296 ∧ ∀ kv ∈ m, kv.1 < 4294967296 ∧ kv.2.length < 4294967296)
    (he : ∀ l, ck.enforced_degree_bounds = some l →
      l.length < 4294967296 ∧ ∀ b ∈ l, b < 4294967296)
    (hmd : ck.max_degree < 4294967296)
    (hsort1 : (ck.lagrange_bases_at_beta_g.map Prod.fst).Pairwise (· < ·))
    (hsort2 : ∀ m, ck.shifted_powers_of_beta_times_gamma_g = some m →
      (m.map Prod.fst).Pairwise (· < ·)) :
    CommitterKey.read_le (ck.write_le ++ rest) = .ok (ck, rest) := by
  apply read_write_roundtrip ck
  refine ⟨hp, hl, hsort1, fun kv hkv => ⟨hlagr kv hkv, hlk kv hkv⟩, hg, ?_, ?_, ?_, hmd⟩
  · cases hx : ck.shifted_powers_of_beta_g with
    | none => trivial
    | some sp => exact hs sp hx
  · cases hx : ck.shifted_powers_of_beta_times_gamma_g with
    | none => trivial
    | some m => exact ⟨(hm m hx).1, hsort2 m hx, (hm m hx).2⟩
  · cases hx : ck.enforced_degree_bounds with
    | none => trivial
    | some l => exact he l hx

/-- Witness for C10 at `ckPlain` with trailing stream bytes. -/
theorem committer_key_u32_lagrange_preconditions_witness :
    (∀ kv ∈ ckPlain.lagrange_bases_at_beta_g, kv.2.length = kv.1) ∧
    CommitterKey.read_le (ckPlain.write_le ++ [5]) = .ok (ckPlain, [5]) :=
  ⟨by decide,
    committer_key_u32_lagrange_preconditions ckPlain [5] (by decide) (by decide)
      (by decide) (by decide) (by decide)
      (fun sp h => Option.noConfusion h) (fun m h => Option.noConfusion h)
      (fun l h => Option.noConfusion h) (by decide) (by decide)
      (fun m h => Option.noConfusion h)⟩

/-! ## Claim C2: single-byte-flip integrity detection -/

instance fact_prime_hashMod : Fact (Nat.Prime hashMod) :=
  ⟨by norm_num [hashMod]⟩

theorem hashMod_pos : 0 < hashMod := by norm_num [hashMod]

theorem rollStep_lt (h b : Nat) : rollStep h b < hashMod :=
  Nat.mod_lt _ hashMod_pos

theorem rollHash_lt (l : List Nat) : ∀ h, h < hashMod → rollHash l h < hashMod := by
  induction l with
  | nil => exact fun h hh => hh
  | cons b t ih =>
    intro h hh
    exact ih (rollStep h b) (rollStep_lt h b)

theorem rollStep_cast (h b : Nat) :
    ((rollStep h b : Nat) : ZMod hashMod) =
      (h : ZMod hashMod) * ((257 : ℕ) : ZMod hashMod) + ((b : ℕ) : ZMod hashMod) := by
  rw [rollStep, ZMod.natCast_mod]
  push_cast
  ring

theorem cast_257_ne_zero : ((257 : ℕ) : ZMod hashMod) ≠ 0 := by
  rw [Ne, ZMod.natCast_zmod_eq_zero_iff_dvd]
  norm_num [hashMod]

theorem rollStep_state_inj (h1 h2 b : Nat) (hl1 : h1 < hashMod)
    (hl2 : h2 < hashMod) (hne : h1 ≠ h2) : rollStep h1 b ≠ rollStep h2 b := by
  intro heq
  have hz : (h1 : ZMod hashMod) * ((257 : ℕ) : ZMod hashMod) + ((b : ℕ) : ZMod hashMod) =
      (h2 : ZMod hashMod) * ((257 : ℕ) : ZMod hashMod) + ((b : ℕ) : ZMod hashMod) := by
    rw [← rollStep_cast, ← rollStep_cast, heq]
  have hcast : (h1 : ZMod hashMod) = (h2 : ZMod hashMod) :=
    mul_right_cancel₀ cast_257_ne_zero (add_right_cancel hz)
  have hmod : h1 ≡ h2 [MOD hashMod] := (ZMod.natCast_eq_natCast_iff _ _ _).mp hcast
  rw [Nat.ModEq, Nat.mod_eq_of_lt hl1, Nat.mod_eq_of_lt hl2] at hmod
  exact hne hmod

theorem rollHash_state_inj (l : List Nat) :
    ∀ h1 h2, h1 < hashMod → h2 < hashMod → h1 ≠ h2 →
      rollHash l h1 ≠ rollHash l h2 := by
  induction l with
  | nil => exact fun h1 h2 _ _ hne => hne
  | cons b t ih =>
    intro h1 h2 hl1 hl2 hne
    exact ih (rollStep h1 b) (rollStep h2 b) (rollStep_lt h1 b) (rollStep_lt h2 b)
      (rollStep_state_inj h1 h2 b hl1 hl2 hne)

theorem rollHash_flip_ne (pre suf : List Nat) (b1 b2 : Nat) (hb1 : b1 < 256)
    (hb2 : b2 < 256) (hne : b1 ≠ b2) :
    rollHash (pre ++ b1 :: suf) 0 ≠ rollHash (pre ++ b2 :: suf) 0 := by
  have hH : rollHash pre 0 < hashMod := rollHash_lt pre 0 hashMod_pos
  have hfold : ∀ b : Nat, rollHash (pre ++ b :: suf) 0 =
      rollHash suf (rollStep (rollHash pre 0) b) := by
    intro b
    simp [rollHash, List.foldl_append]
  rw [hfold b1, hfold b2]
  apply rollHash_state_inj suf _ _ (rollStep_lt _ _) (rollStep_lt _ _)
  intro heq
  have hz : (rollHash pre 0 : ZMod hashMod) * ((257 : ℕ) : ZMod hashMod) +
      ((b1 : ℕ) : ZMod hashMod) =
      (rollHash pre 0 : ZMod hashMod) * ((257 : ℕ) : ZMod hashMod) +
      ((b2 : ℕ) : ZMod hashMod) := by
    rw [← rollStep_cast, ← rollStep_cast, heq]
  have hb : ((b1 : ℕ) : ZMod hashMod) = ((b2 : ℕ) : ZMod hashMod) :=
    add_left_cancel hz
  have hmod : b1 ≡ b2 [MOD hashMod] := (ZMod.natCast_eq_natCast_iff _ _ _).mp hb
  rw [Nat.ModEq, Nat.mod_eq_of_lt (by norm_num [hashMod] at *; omega),
    Nat.mod_eq_of_lt (by norm_num [hashMod] at *; omega)] at hmod
  exact hne hmod

theorem writeU32_inj (n m : Nat) (hn : n < 4294967296) (hm : m < 4294967296)
    (h : writeU32 n = writeU32 m) : n = m := by
  simp only [writeU32, List.cons.injEq, and_true] at h
  omega

theorem sha256_flip_ne (pre suf : List Nat) (b1 b2 : Nat) (hb1 : b1 < 256)
    (hb2 : b2 < 256) (hne : b1 ≠ b2) :
    sha256 (pre ++ b1 :: suf) ≠ sha256 (pre ++ b2 :: suf) := by
  intro heq
  rw [sha256, sha256] at heq
  have h4 : writeU32 (rollHash (pre ++ b1 :: suf) 0) =
      writeU32 (rollHash (pre ++ b2 :: suf) 0) :=
    List.append_cancel_right heq
  have hv1 : rollHash (pre ++ b1 :: suf) 0 < 4294967296 :=
    lt_trans (rollHash_lt _ 0 hashMod_pos) (by norm_num [hashMod])
  have hv2 : rollHash (pre ++ b2 :: suf) 0 < 4294967296 :=
    lt_trans (rollHash_lt _ 0 hashMod_pos) (by norm_num [hashMod])
  exact rollHash_flip_ne pre suf b1 b2 hb1 hb2 hne (writeU32_inj _ _ hv1 hv2 h4)

theorem dec4_lt (b0 b1 b2 b3 : Nat) (h0 : b0 < 256) (h1 : b1 < 256)
    (h2 : b2 < 256) (h3 : b3 < 256) : dec4 b0 b1 b2 b3 < 4294967296 := by
  rw [dec4]
  omega

theorem writeU32_dec4 (b0 b1 b2 b3 : Nat) (h0 : b0 < 256) (h1 : b1 < 256)
    (h2 : b2 < 256) (h3 : b3 < 256) :
    writeU32 (dec4 b0 b1 b2 b3) = [b0, b1, b2, b3] := by
  simp only [writeU32, dec4, List.cons.injEq, and_true]
  omega

theorem list_getD_set {α : Type} (l : List α) (j : Nat) (b d : α)
    (h : j < l.length) : (l.set j b).getD j d = b := by
  induction l generalizing j with
  | nil => simp at h
  | cons a t ih =>
    cases j with
    | zero => rfl
    | succ j => simpa using ih j (by simpa using h)

theorem encG_getD (g : G) (j : Nat) (hj : j < 4) :
    (encG g).getD j 0 = g.val / 256 ^ j % 256 := by
  interval_cases j
  · show g.val % 256 = g.val / 256 ^ 0 % 256
    norm_num
  · show g.val / 256 % 256 = g.val / 256 ^ 1 % 256
    norm_num
  · show g.val / 65536 % 256 = g.val / 256 ^ 2 % 256
    norm_num
  · show g.val / 16777216 % 256 = g.val / 256 ^ 3 % 256
    norm_num

theorem byteSetG_spec (g : G) (j b : Nat) (hj : j < 4) (hb : b < 256) :
    encG (byteSetG g j b) = (encG g).set j b := by
  have hd1 : g.val / 256 % 256 < 256 := Nat.mod_lt _ (by norm_num)
  have hd2 : g.val / 65536 % 256 < 256 := Nat.mod_lt _ (by norm_num)
  have hd3 : g.val / 16777216 % 256 < 256 := Nat.mod_lt _ (by norm_num)
  have hd0 : g.val % 256 < 256 := Nat.mod_lt _ (by norm_num)
  interval_cases j
  · have hval : (byteSetG g 0 b).val =
        dec4 b (g.val / 256 % 256) (g.val / 65536 % 256) (g.val / 16777216 % 256) := by
      show dec4l ((encG g).set 0 b) % 4294967296 = _
      exact Nat.mod_eq_of_lt (dec4_lt _ _ _ _ hb hd1 hd2 hd3)
    show encG (byteSetG g 0 b) = b :: (g.val / 256 % 256) ::
      (g.val / 65536 % 256) :: [g.val / 16777216 % 256]
    rw [encG, hval, writeU32_dec4 _ _ _ _ hb hd1 hd2 hd3]
  · have hval : (byteSetG g 1 b).val =
        dec4 (g.val % 256) b (g.val / 65536 % 256) (g.val / 16777216 % 256) := by
      show dec4l ((encG g).set 1 b) % 4294967296 = _
      exact Nat.mod_eq_of_lt (dec4_lt _ _ _ _ hd0 hb hd2 hd3)
    show encG (byteSetG g 1 b) = (g.val % 256) :: b ::
      (g.val / 65536 % 256) :: [g.val / 16777216 % 256]
    rw [encG, hval, writeU32_dec4 _ _ _ _ hd0 hb hd2 hd3]
  · have hval : (byteSetG g 2 b).val =
        dec4 (g.val % 256) (g.val / 256 % 256) b (g.val / 16777216 % 256) := by
      show dec4l ((encG g).set 2 b) % 4294967296 = _
      exact Nat.mod_eq_of_lt (dec4_lt _ _ _ _ hd0 hd1 hb hd3)
    show encG (byteSetG g 2 b) = (g.val % 256) :: (g.val / 256 % 256) ::
      b :: [g.val / 16777216 % 256]
    rw [encG, hval, writeU32_dec4 _ _ _ _ hd0 hd1 hb hd3]
  · have hval : (byteSetG g 3 b).val =
        dec4 (g.val % 256) (g.val / 256 % 256) (g.val / 65536 % 256) b := by
      show dec4l ((encG g).set 3 b) % 4294967296 = _
      exact Nat.mod_eq_of_lt (dec4_lt _ _ _ _ hd0 hd1 hd2 hb)
    show encG (byteSetG g 3 b) = (g.val % 256) :: (g.val / 256 % 256) ::
      (g.val / 65536 % 256) :: [b]
    rw [encG, hval, writeU32_dec4 _ _ _ _ hd0 hd1 hd2 hb]

theorem list_eq_take_cons_drop' {α : Type} (l : List α) (i : Nat) (x : α)
    (h : l[i]? = some x) : l = l.take i ++ x :: l.drop (i + 1) := by
  induction l generalizing i with
  | nil => simp at h
  | cons a t ih =>
    cases i with
    | zero =>
      simp at h
      simp [h]
    | succ i =>
      simpa using ih i (by simpa using h)

theorem list_getElem?_lt {α : Type} (l : List α) (i : Nat) (x : α)
    (h : l[i]? = some x) : i < l.length :=
  (List.getElem?_eq_some.mp h).1

theorem encGs_decomp (l : List G) (i : Nat) (g : G) (h : l[i]? = some g) :
    encGs l = encGs (l.take i) ++ (encG g ++ encGs (l.drop (i + 1))) := by
  conv_lhs => rw [list_eq_take_cons_drop' l i g h]
  rw [encGs_append, encGs_cons]

theorem encGs_set_decomp (l : List G) (i : Nat) (g' : G) (hi : i < l.length) :
    encGs (l.set i g') = encGs (l.take i) ++ (encG g' ++ encGs (l.drop (i + 1))) := by
  rw [list_set_eq_take_cons_drop l i g' hi, encGs_append, encGs_cons]

theorem list_flatten_map_decomp {α β : Type} (f : α → List β) (m : List α)
    (e : Nat) (kv : α) (h : m[e]? = some kv) :
    (m.map f).flatten =
      ((m.take e).map f).flatten ++ (f kv ++ ((m.drop (e + 1)).map f).flatten) := by
  conv_lhs => rw [list_eq_take_cons_drop' m e kv h]
  simp

theorem list_flatten_map_set_decomp {α β : Type} (f : α → List β) (m : List α)
    (e : Nat) (x : α) (he : e < m.length) :
    ((m.set e x).map f).flatten =
      ((m.take e).map f).flatten ++ (f x ++ ((m.drop (e + 1)).map f).flatten) := by
  rw [list_set_eq_take_cons_drop m e x he]
  simp

theorem modifyAt_eq (m : List (Nat × List G)) (e : Nat) (kv : Nat × List G)
    (f : Nat × List G → Nat × List G) (h : m[e]? = some kv) :
    modifyAt m e f = m.set e (f kv) := by
  rw [modifyAt, h]

theorem keys_set_same {α β : Type} (m : List (α × β)) (e : Nat) (kv : α × β)
    (v' : β) (h : m[e]? = some kv) :
    (m.set e (kv.1, v')).map Prod.fst = m.map Prod.fst := by
  have he := list_getElem?_lt m e kv h
  rw [list_set_eq_take_cons_drop m e (kv.1, v') he]
  conv_rhs => rw [list_eq_take_cons_drop' m e kv h]
  simp

theorem mem_set_cases {α : Type} (m : List α) (e : Nat) (x p : α)
    (he : e < m.length) (hp : p ∈ m.set e x) : p = x ∨ p ∈ m := by
  rw [list_set_eq_take_cons_drop m e x he] at hp
  rcases List.mem_append.mp hp with hp | hp
  · exact Or.inr ((List.take_sublist e m).subset hp)
  · rcases List.mem_cons.mp hp with hp | hp
    · exact Or.inl hp
    · exact Or.inr ((List.drop_sublist (e + 1) m).subset hp)

theorem list_getD_append_left {α : Type} (l1 l2 : List α) (j : Nat) (d : α)
    (h : j < l1.length) : (l1 ++ l2).getD j d = l1.getD j d := by
  induction l1 generalizing j with
  | nil => simp at h
  | cons a t ih =>
    cases j with
    | zero => rfl
    | succ j => simpa using ih j (by simpa using h)

/-- Core of the flip theorem: if the serialized body and the digest input of
`ck` both decompose around one digest-covered group element `g`, with the
same decomposition for every replacement of that element, then flipping any
single byte of `g`'s encoding in the serialized key makes `read_le` fail
with the integrity error; and the byte at that position is the
corresponding byte of `g`'s encoding. -/
theorem flip_core (ck : CommitterKey) (g : G) (A B A2 B2 : List Nat)
    (repl : G → CommitterKey)
    (hbody : ∀ g', (repl g').writeBody = A ++ (encG g' ++ B))
    (hbody0 : ck.writeBody = A ++ (encG g ++ B))
    (hhash : ∀ g', hashInput (repl g') = A2 ++ (encG g' ++ B2))
    (hhash0 : hashInput ck = A2 ++ (encG g ++ B2))
    (hwf : ∀ g', (repl g').WellFormed)
    (j b' : Nat) (hj : j < 4) (hb : b' < 256)
    (hne : b' ≠ g.val / 256 ^ j % 256) :
    CommitterKey.read_le ((ck.write_le).set (A.length + j) b') =
      .error "Mismatching group elements" ∧
    (ck.write_le).getD (A.length + j) 0 = g.val / 256 ^ j % 256 := by
  have henc : encG (byteSetG g j b') = (encG g).set j b' := byteSetG_spec g j b' hj hb
  have hjlen : j < (encG g).length := by rw [length_encG]; exact hj
  have hs : (ck.write_le).set (A.length + j) b' =
      (repl (byteSetG g j b')).writeBody ++ (sha256 (hashInput ck) ++ []) := by
    rw [CommitterKey.write_le, hbody0, List.append_assoc, list_set_append_right,
      List.append_assoc, list_set_append_left _ _ _ _ hjlen, ← henc,
      hbody (byteSetG g j b')]
    simp
  have hdiglt : (encG g).getD j 0 < 256 := by
    rw [encG_getD g j hj]
    exact Nat.mod_lt _ (by norm_num)
  have hdne : (encG g).getD j 0 ≠ b' := by
    rw [encG_getD g j hj]
    exact fun he => hne he.symm
  have hdig : sha256 (hashInput ck) ≠ sha256 (hashInput (repl (byteSetG g j b'))) := by
    rw [hhash0, hhash (byteSetG g j b'), henc]
    have hd : encG g = (encG g).take j ++ (encG g).getD j 0 :: (encG g).drop (j + 1) :=
      list_eq_take_cons_drop _ j 0 hjlen
    have hd2 : (encG g).set j b' = (encG g).take j ++ b' :: (encG g).drop (j + 1) :=
      list_set_eq_take_cons_drop _ j b' hjlen
    rw [hd2]
    conv_lhs => rw [hd]
    have hflip := sha256_flip_ne (A2 ++ (encG g).take j)
      ((encG g).drop (j + 1) ++ B2) ((encG g).getD j 0) b' hdiglt hb hdne
    simpa [List.append_assoc] using hflip
  have hread := read_le_writeBody (repl (byteSetG g j b')) (hwf (byteSetG g j b'))
    (sha256 (hashInput ck)) (length_sha256 _) []
  constructor
  · rw [hs, hread, if_neg hdig]
  · rw [CommitterKey.write_le, hbody0, List.append_assoc, List.append_assoc,
      list_getD_append_right, list_getD_append_left _ _ _ _ hjlen, encG_getD g j hj]

theorem list_getElem?_getD {α : Type} (l : List α) (i : Nat) (d : α)
    (h : i < l.length) : l[i]? = some (l.getD i d) := by
  induction l generalizing i with
  | nil => simp at h
  | cons a t ih =>
    cases i with
    | zero => simp
    | succ i => simpa using ih i (by simpa using h)

theorem list_getD_of_getElem? {α : Type} (l : List α) (i : Nat) (x d : α)
    (h : l[i]? = some x) : l.getD i d = x := by
  induction l generalizing i with
  | nil => simp at h
  | cons a t ih =>
    cases i with
    | zero =>
      simp at h
      simp [h]
    | succ i => simpa using ih i (by simpa using h)

/-- Claim C2 (amended): flipping any single byte inside the region of a
serialized committer key that holds the digest-covered group elements —
`powers_of_beta_g`, `powers_of_beta_times_gamma_g`, the shifted powers, and
the values of `shifted_powers_of_beta_times_gamma_g`; NOT the Lagrange-basis
region, which the digest does not cover — causes `read_le` to fail with the
integrity error rather than return a different key silently.  The second
conjunct certifies that the flipped position really holds the selected
element's byte `j`. -/
theorem committer_key_single_flip_integrity (ck : CommitterKey)
    (hwf : ck.WellFormed) (sel : GSel) (hsel : SelValid ck sel)
    (j b' : Nat) (hj : j < 4) (hb : b' < 256)
    (hne : b' ≠ byteAtSel ck sel j) :
    CommitterKey.read_le ((ck.write_le).set (posOfSel ck sel + j) b') =
      .error "Mismatching group elements" ∧
    (ck.write_le).getD (posOfSel ck sel + j) 0 = byteAtSel ck sel j := by
  cases sel with
  | pw i =>
    have hsel' : i < ck.powers_of_beta_g.length := hsel
    have hsome : ck.powers_of_beta_g[i]? =
        some (ck.powers_of_beta_g.getD i gdefault) :=
      list_getElem?_getD _ i gdefault hsel'
    have hAlen : posOfSel ck (.pw i) =
        (writeU32 ck.powers_of_beta_g.length ++
          encGs (ck.powers_of_beta_g.take i)).length := by
      simp [posOfSel, List.length_append, length_writeU32, length_encGs,
        List.length_take]
      omega
    rw [hAlen]
    refine flip_core ck (ck.powers_of_beta_g.getD i gdefault)
      (writeU32 ck.powers_of_beta_g.length ++ encGs (ck.powers_of_beta_g.take i))
      (encGs (ck.powers_of_beta_g.drop (i + 1)) ++
        (writeLagr ck.lagrange_bases_at_beta_g ++
          (writeVec ck.powers_of_beta_times_gamma_g ++
            (writeOptVec ck.shifted_powers_of_beta_g ++
              (writeOptSG ck.shifted_powers_of_beta_times_gamma_g ++
                (writeOptEb ck.enforced_degree_bounds ++ writeU32 ck.max_degree))))))
      (encGs (ck.powers_of_beta_g.take i))
      (encGs (ck.powers_of_beta_g.drop (i + 1)) ++
        (encGs ck.powers_of_beta_times_gamma_g ++
          ((match ck.shifted_powers_of_beta_g with
            | some sp => encGs sp
            | none => []) ++
            (match ck.shifted_powers_of_beta_times_gamma_g with
              | some m => (m.map (fun kv => encGs kv.2)).flatten
              | none => []))))
      (fun g' => replaceSel ck (.pw i) g')
      ?_ ?_ ?_ ?_ ?_ j b' hj hb hne
    · intro g'
      simp only [replaceSel, CommitterKey.writeBody, writeVec,
        encGs_set_decomp ck.powers_of_beta_g i g' hsel', List.length_set,
        List.append_assoc]
    · simp only [CommitterKey.writeBody, writeVec,
        encGs_decomp ck.powers_of_beta_g i _ hsome, List.append_assoc]
    · intro g'
      simp only [replaceSel, hashInput,
        encGs_set_decomp ck.powers_of_beta_g i g' hsel', List.append_assoc]
    · simp only [hashInput, encGs_decomp ck.powers_of_beta_g i _ hsome,
        List.append_assoc]
    · intro g'
      obtain ⟨h1, h2, h3, h4, h5, h6, h7, h8, h9⟩ := hwf
      refine ⟨?_, h2, h3, h4, h5, h6, h7, h8, h9⟩
      show (ck.powers_of_beta_g.set i g').length < 4294967296
      rw [List.length_set]
      exact h1
  | gam i =>
    have hsel' : i < ck.powers_of_beta_times_gamma_g.length := hsel
    have hsome : ck.powers_of_beta_times_gamma_g[i]? =
        some (ck.powers_of_beta_times_gamma_g.getD i gdefault) :=
      list_getElem?_getD _ i gdefault hsel'
    have hAlen : posOfSel ck (.gam i) =
        ((writeVec ck.powers_of_beta_g ++ writeLagr ck.lagrange_bases_at_beta_g) ++
          (writeU32 ck.powers_of_beta_times_gamma_g.length ++
            encGs (ck.powers_of_beta_times_gamma_g.take i))).length := by
      simp [posOfSel, List.length_append, length_writeU32, length_encGs,
        List.length_take]
      omega
    rw [hAlen]
    refine flip_core ck (ck.powers_of_beta_times_gamma_g.getD i gdefault)
      ((writeVec ck.powers_of_beta_g ++ writeLagr ck.lagrange_bases_at_beta_g) ++
        (writeU32 ck.powers_of_beta_times_gamma_g.length ++
          encGs (ck.powers_of_beta_times_gamma_g.take i)))
      (encGs (ck.powers_of_beta_times_gamma_g.drop (i + 1)) ++
        (writeOptVec ck.shifted_powers_of_beta_g ++
          (writeOptSG ck.shifted_powers_of_beta_times_gamma_g ++
            (writeOptEb ck.enforced_degree_bounds ++ writeU32 ck.max_degree))))
      (encGs ck.powers_of_beta_g ++ encGs (ck.powers_of_beta_times_gamma_g.take i))
      (encGs (ck.powers_of_beta_times_gamma_g.drop (i + 1)) ++
        ((match ck.shifted_powers_of_beta_g with
          | some sp => encGs sp
          | none => []) ++
          (match ck.shifted_powers_of_beta_times_gamma_g with
            | some m => (m.map (fun kv => encGs kv.2)).flatten
            | none => [])))
      (fun g' => replaceSel ck (.gam i) g')
      ?_ ?_ ?_ ?_ ?_ j b' hj hb hne
    · intro g'
      simp only [replaceSel, CommitterKey.writeBody, writeVec,
        encGs_set_decomp ck.powers_of_beta_times_gamma_g i g' hsel',
        List.length_set, List.append_assoc]
    · simp only [CommitterKey.writeBody, writeVec,
        encGs_decomp ck.powers_of_beta_times_gamma_g i _ hsome, List.append_assoc]
    · intro g'
      simp only [replaceSel, hashInput,
        encGs_set_decomp ck.powers_of_beta_times_gamma_g i g' hsel',
        List.append_assoc]
    · simp only [hashInput,
        encGs_decomp ck.powers_of_beta_times_gamma_g i _ hsome, List.append_assoc]
    · intro g'
      obtain ⟨h1, h2, h3, h4, h5, h6, h7, h8, h9⟩ := hwf
      refine ⟨h1, h2, h3, h4, ?_, h6, h7, h8, h9⟩
      show (ck.powers_of_beta_times_gamma_g.set i g').length < 4294967296
      rw [List.length_set]
      exact h5
  | sh i =>
    obtain ⟨sp, hsp, hi⟩ := hsel
    have hsome : sp[i]? = some (sp.getD i gdefault) :=
      list_getElem?_getD _ i gdefault hi
    have hby : byteAtSel ck (.sh i) j = (sp.getD i gdefault).val / 256 ^ j % 256 := by
      simp [byteAtSel, elemAtSel, hsp]
    rw [hby] at hne ⊢
    have hAlen : posOfSel ck (.sh i) =
        (((writeVec ck.powers_of_beta_g ++ writeLagr ck.lagrange_bases_at_beta_g) ++
          writeVec ck.powers_of_beta_times_gamma_g) ++
          (writeBool true ++ (writeU32 sp.length ++ encGs (sp.take i)))).length := by
      simp [posOfSel, writeBool, List.length_append, length_writeU32, length_encGs,
        List.length_take]
      omega
    rw [hAlen]
    refine flip_core ck (sp.getD i gdefault)
      (((writeVec ck.powers_of_beta_g ++ writeLagr ck.lagrange_bases_at_beta_g) ++
        writeVec ck.powers_of_beta_times_gamma_g) ++
        (writeBool true ++ (writeU32 sp.length ++ encGs (sp.take i))))
      (encGs (sp.drop (i + 1)) ++
        (writeOptSG ck.shifted_powers_of_beta_times_gamma_g ++
          (writeOptEb ck.enforced_degree_bounds ++ writeU32 ck.max_degree)))
      ((encGs ck.powers_of_beta_g ++ encGs ck.powers_of_beta_times_gamma_g) ++
        encGs (sp.take i))
      (encGs (sp.drop (i + 1)) ++
        (match ck.shifted_powers_of_beta_times_gamma_g with
          | some m => (m.map (fun kv => encGs kv.2)).flatten
          | none => []))
      (fun g' => replaceSel ck (.sh i) g')
      ?_ ?_ ?_ ?_ ?_ j b' hj hb hne
    · intro g'
      simp [replaceSel, CommitterKey.writeBody, writeOptVec, hsp, writeBool,
        encGs_set_decomp sp i g' hi, List.length_set, List.append_assoc]
    · simp [CommitterKey.writeBody, writeOptVec, hsp, writeBool,
        encGs_decomp sp i _ hsome, List.append_assoc]
    · intro g'
      simp [replaceSel, hashInput, hsp, encGs_set_decomp sp i g' hi,
        List.append_assoc]
    · simp [hashInput, hsp, encGs_decomp sp i _ hsome, List.append_assoc]
    · intro g'
      obtain ⟨h1, h2, h3, h4, h5, h6, h7, h8, h9⟩ := hwf
      have h6' : sp.length < 4294967296 := by
        rw [hsp] at h6
        exact h6
      refine ⟨h1, h2, h3, h4, h5, ?_, h7, h8, h9⟩
      simp only [replaceSel, hsp, Option.map]
      show (sp.set i g').length < 4294967296
      rw [List.length_set]
      exact h6'
  | shg e i =>
    obtain ⟨m, kv, hm, hkv, hi⟩ := hsel
    have he : e < m.length := list_getElem?_lt m e kv hkv
    have hkvmem : kv ∈ m := by
      have h1 := (List.getElem?_eq_some.mp hkv).1
      have h2 := (List.getElem?_eq_some.mp hkv).2
      have := List.getElem_mem (l := m) (n := e) h1
      rwa [h2] at this
    have hsome : kv.2[i]? = some (kv.2.getD i gdefault) :=
      list_getElem?_getD _ i gdefault hi
    have hgetD : m.getD e (0, []) = kv := list_getD_of_getElem? m e kv (0, []) hkv
    have hby : byteAtSel ck (.shg e i) j =
        (kv.2.getD i gdefault).val / 256 ^ j % 256 := by
      simp [byteAtSel, elemAtSel, hm, hkv]
    rw [hby] at hne ⊢
    have hAlen : posOfSel ck (.shg e i) =
        ((((writeVec ck.powers_of_beta_g ++ writeLagr ck.lagrange_bases_at_beta_g) ++
          writeVec ck.powers_of_beta_times_gamma_g) ++
          writeOptVec ck.shifted_powers_of_beta_g) ++
          (writeBool true ++ (writeU32 m.length ++
            (((m.take e).map sgEntryBytes).flatten ++
              (writeU32 kv.1 ++ (writeU32 kv.2.length ++
                encGs (kv.2.take i))))))).length := by
      simp [posOfSel, hm, writeBool, List.length_append, length_writeU32,
        length_encGs, List.length_take]
      omega
    rw [hAlen]
    refine flip_core ck (kv.2.getD i gdefault)
      ((((writeVec ck.powers_of_beta_g ++ writeLagr ck.lagrange_bases_at_beta_g) ++
        writeVec ck.powers_of_beta_times_gamma_g) ++
        writeOptVec ck.shifted_powers_of_beta_g) ++
        (writeBool true ++ (writeU32 m.length ++
          (((m.take e).map sgEntryBytes).flatten ++
            (writeU32 kv.1 ++ (writeU32 kv.2.length ++ encGs (kv.2.take i)))))))
      (encGs (kv.2.drop (i + 1)) ++
        (((m.drop (e + 1)).map sgEntryBytes).flatten ++
          (writeOptEb ck.enforced_degree_bounds ++ writeU32 ck.max_degree)))
      (((encGs ck.powers_of_beta_g ++ encGs ck.powers_of_beta_times_gamma_g) ++
        (match ck.shifted_powers_of_beta_g with
          | some sp => encGs sp
          | none => [])) ++
        (((m.take e).map (fun kv => encGs kv.2)).flatten ++ encGs (kv.2.take i)))
      (encGs (kv.2.drop (i + 1)) ++
        ((m.drop (e + 1)).map (fun kv => encGs kv.2)).flatten)
      (fun g' => replaceSel ck (.shg e i) g')
      ?_ ?_ ?_ ?_ ?_ j b' hj hb hne
    · intro g'
      have hset : modifyAt m e (fun kv => (kv.1, kv.2.set i g')) =
          m.take e ++ (kv.1, kv.2.set i g') :: m.drop (e + 1) := by
        rw [modifyAt_eq m e kv _ hkv, list_set_eq_take_cons_drop m e _ he]
      have hlen : (m.take e ++ (kv.1, kv.2.set i g') :: m.drop (e + 1)).length =
          m.length := by
        simp
        omega
      simp [replaceSel, CommitterKey.writeBody, writeOptSG, hm, writeBool, hset,
        hlen, sgEntryBytes, encGs_set_decomp kv.2 i g' hi, List.length_set,
        List.append_assoc]
    · simp [CommitterKey.writeBody, writeOptSG, hm, writeBool,
        list_flatten_map_decomp sgEntryBytes m e kv hkv, sgEntryBytes,
        encGs_decomp kv.2 i _ hsome, List.append_assoc]
    · intro g'
      have hset : modifyAt m e (fun kv => (kv.1, kv.2.set i g')) =
          m.take e ++ (kv.1, kv.2.set i g') :: m.drop (e + 1) := by
        rw [modifyAt_eq m e kv _ hkv, list_set_eq_take_cons_drop m e _ he]
      simp [replaceSel, hashInput, hm, hset, encGs_set_decomp kv.2 i g' hi,
        List.append_assoc]
    · simp [hashInput, hm,
        list_flatten_map_decomp (fun kv => encGs kv.2) m e kv hkv,
        encGs_decomp kv.2 i _ hsome, List.append_assoc]
    · intro g'
      obtain ⟨h1, h2, h3, h4, h5, h6, h7, h8, h9⟩ := hwf
      have h7' : m.length < 4294967296 ∧
          (m.map Prod.fst).Pairwise (· < ·) ∧
          ∀ kv' ∈ m, kv'.1 < 4294967296 ∧ kv'.2.length < 4294967296 := by
        rw [hm] at h7
        exact h7
      refine ⟨h1, h2, h3, h4, h5, h6, ?_, h8, h9⟩
      simp only [replaceSel, hm, Option.map,
        modifyAt_eq m e kv (fun kv => (kv.1, kv.2.set i g')) hkv]
      show (m.set e (kv.1, kv.2.set i g')).length < 4294967296 ∧
        ((m.set e (kv.1, kv.2.set i g')).map Prod.fst).Pairwise (· < ·) ∧
        ∀ kv' ∈ m.set e (kv.1, kv.2.set i g'),
          kv'.1 < 4294967296 ∧ kv'.2.length < 4294967296
      refine ⟨by rw [List.length_set]; exact h7'.1, ?_, ?_⟩
      · rw [keys_set_same m e kv (kv.2.set i g') hkv]
        exact h7'.2.1
      · intro kv' hkv'
        rcases mem_set_cases m e (kv.1, kv.2.set i g') kv' he hkv' with hkv' | hkv'
        · subst hkv'
          refine ⟨(h7'.2.2 kv hkvmem).1, ?_⟩
          show (kv.2.set i g').length < 4294967296
          rw [List.length_set]
          exact (h7'.2.2 kv hkvmem).2
        · exact h7'.2.2 kv' hkv'

/-- Counterexample to claim C2 as stated: byte 12 of the serialized
`ckLagrOne` is the first byte of its single Lagrange-basis element — inside
the region holding serialized group elements — yet flipping it from 0 to 1
makes `read_le` SUCCEED with a silently different key (Lagrange basis
element 1 instead of 0), because the digest does not cover the
Lagrange-basis region. -/
theorem committer_key_lagrange_flip_silent_cex :
    CommitterKey.read_le ((ckLagrOne.write_le).set 12 1) =
      .ok (⟨[], [(1, [1])], [], none, none, none, 0⟩, []) ∧
    (⟨[], [(1, [(1 : G)])], [], none, none, none, (0 : Nat)⟩ : CommitterKey) ≠
      ckLagrOne ∧
    (ckLagrOne.write_le).getD 12 0 = 0 ∧
    12 < ckLagrOne.write_le.length := by
  refine ⟨by decide, by decide, by decide, by decide⟩

/-- Witness for C2 (amended): flipping byte 0 of the single
`powers_of_beta_g` element of `ckOnePower` to the value 5 is rejected with
the integrity error. -/
theorem committer_key_single_flip_integrity_witness :
    (ckOnePower.WellFormed ∧ 0 < ckOnePower.powers_of_beta_g.length ∧
      (5 : Nat) < 256 ∧ (5 : Nat) ≠ byteAtSel ckOnePower (.pw 0) 0) ∧
    (CommitterKey.read_le ((ckOnePower.write_le).set
        (posOfSel ckOnePower (.pw 0) + 0) 5) =
        .error "Mismatching group elements" ∧
      (ckOnePower.write_le).getD (posOfSel ckOnePower (.pw 0) + 0) 0 =
        byteAtSel ckOnePower (.pw 0) 0) :=
  ⟨⟨by decide, by decide, by decide, by decide⟩,
    committer_key_single_flip_integrity ckOnePower (by decide) (.pw 0)
      (show 0 < ckOnePower.powers_of_beta_g.length by decide)
      0 5 (by decide) (by decide) (by decide)⟩
